import Mathlib

/-!
WTForacle — verification of the tokenizer and generation loop

Shallow embedding of the Go sources of the WTForacle inference engine
(`wtf/tokenizer.go` and the CGO bridge `wtf.go`, concatenated in the
repository snapshot).  Go strings are modelled as lists of bytes
(`List Nat`, each entry `< 256`), Go `int` as `ℤ`, Go `float32` as `ℚ`
with exact arithmetic, and `math.Exp` as an abstract function parameter
`E : ℚ → ℚ` (positivity / strict monotonicity are taken as hypotheses
where a theorem needs them).  Go maps are modelled as functions to
`Option` values; where Go iterates over a map, the iteration order is
provably irrelevant (the updates commute) or the Go tie-break rules make
the outcome order-independent, as noted at each definition.
-/

namespace WTF

/-- Uppercase hexadecimal digit for a value `< 16`, as a byte
(mirrors the `%02X` verb of `fmt.Sprintf`). -/
def hexDigit (n : ℕ) : ℕ :=
  if n < 10 then 48 + n else 55 + n

/-- The byte string `fmt.Sprintf("<0x%02X>", b)` used for byte-fallback
tokens: `<`, `0`, `x`, two uppercase hex digits, `>`. -/
def fmtByteToken (b : ℕ) : List ℕ :=
  [60, 48, 120, hexDigit (b / 16), hexDigit (b % 16), 62]

/-- Value of one hexadecimal digit byte (upper- or lowercase, as accepted
by `fmt.Sscanf`'s `%02X` verb); `none` if the byte is not a hex digit. -/
def hexVal (c : ℕ) : Option ℕ :=
  if 48 ≤ c ∧ c ≤ 57 then some (c - 48)
  else if 65 ≤ c ∧ c ≤ 70 then some (c - 55)
  else if 97 ≤ c ∧ c ≤ 102 then some (c - 87)
  else none

/-- `fmt.Sscanf(piece, "<0x%02X>", &b)` on a six-byte piece whose bytes
0,1,2,5 have already been checked: scans up to two hex digits starting at
byte 3; on a scan error the Go variable keeps its zero value, which the
code then uses, hence the `0` defaults. -/
def sscanfHexByte (c3 c4 : ℕ) : ℕ :=
  match hexVal c3 with
  | none => 0
  | some h =>
    match hexVal c4 with
    | none => h
    | some l => 16 * h + l

example : fmtByteToken 0xE2 = [60, 48, 120, 69, 50, 62] := by decide

example : sscanfHexByte 69 50 = 0xE2 := by decide

/-- A UTF-8 continuation byte (`0x80 ≤ b ≤ 0xBF`). -/
def isCont (b : ℕ) : Bool := decide (0x80 ≤ b ∧ b ≤ 0xBF)

/-- Allowed first continuation byte of a three-byte sequence, per Go's
`unicode/utf8` accept ranges (`0xE0` excludes overlong forms, `0xED`
excludes surrogates). -/
def cont1of3 (b0 b1 : ℕ) : Bool :=
  if b0 = 0xE0 then decide (0xA0 ≤ b1 ∧ b1 ≤ 0xBF)
  else if b0 = 0xED then decide (0x80 ≤ b1 ∧ b1 ≤ 0x9F)
  else isCont b1

/-- Allowed first continuation byte of a four-byte sequence (`0xF0`
excludes overlong forms, `0xF4` caps at U+10FFFF). -/
def cont1of4 (b0 b1 : ℕ) : Bool :=
  if b0 = 0xF0 then decide (0x90 ≤ b1 ∧ b1 ≤ 0xBF)
  else if b0 = 0xF4 then decide (0x80 ≤ b1 ∧ b1 ≤ 0x8F)
  else isCont b1

/-- One step of Go's `utf8.DecodeRuneInString`: returns the decoded rune,
the consumed bytes, and the remaining bytes.  Any malformed or truncated
sequence yields `U+FFFD` and consumes exactly one byte, exactly as Go's
`[]rune` conversion and `range` over a string do. -/
def utf8Next : List ℕ → Option (ℕ × List ℕ × List ℕ)
  | [] => none
  | b0 :: rest =>
    if b0 < 0x80 then some (b0, [b0], rest)
    else if b0 < 0xC2 then some (0xFFFD, [b0], rest)
    else if b0 ≤ 0xDF then
      match rest with
      | b1 :: rest1 =>
        if isCont b1 then some ((b0 - 0xC0) * 0x40 + (b1 - 0x80), [b0, b1], rest1)
        else some (0xFFFD, [b0], b1 :: rest1)
      | [] => some (0xFFFD, [b0], [])
    else if b0 ≤ 0xEF then
      match rest with
      | b1 :: b2 :: rest2 =>
        if cont1of3 b0 b1 && isCont b2 then
          some ((b0 - 0xE0) * 0x1000 + (b1 - 0x80) * 0x40 + (b2 - 0x80), [b0, b1, b2], rest2)
        else some (0xFFFD, [b0], b1 :: b2 :: rest2)
      | _ => some (0xFFFD, [b0], rest)
    else if b0 ≤ 0xF4 then
      match rest with
      | b1 :: b2 :: b3 :: rest3 =>
        if cont1of4 b0 b1 && isCont b2 && isCont b3 then
          some ((b0 - 0xF0) * 0x40000 + (b1 - 0x80) * 0x1000 + (b2 - 0x80) * 0x40 + (b3 - 0x80),
            [b0, b1, b2, b3], rest3)
        else some (0xFFFD, [b0], b1 :: b2 :: b3 :: rest3)
      | _ => some (0xFFFD, [b0], rest)
    else some (0xFFFD, [b0], rest)

theorem utf8Next_rest_lt {l : List ℕ} {r : ℕ} {c rest : List ℕ}
    (h : utf8Next l = some (r, c, rest)) : rest.length < l.length := by
  match l with
  | [] => simp [utf8Next] at h
  | b0 :: tl =>
    simp only [utf8Next] at h
    repeat' split at h
    all_goals
      simp only [Option.some.injEq, Prod.mk.injEq] at h
    all_goals
      obtain ⟨-, -, h3⟩ := h
    all_goals
      subst h3
    all_goals
      simp only [List.length_cons]
    all_goals
      omega

/-- Fuel-indexed runner for `toRunes`; `toRunes` always supplies enough
fuel (each UTF-8 step consumes at least one byte), see `toRunes_eq`. -/
def toRunesF : ℕ → List ℕ → List ℕ
  | _, [] => []
  | 0, _ :: _ => []
  | fuel + 1, b0 :: tl =>
    match utf8Next (b0 :: tl) with
    | none => []
    | some (r, _, rest) => r :: toRunesF fuel rest

/-- Go's `[]rune(text)` conversion: decode UTF-8 left to right, one
`U+FFFD` per erroneous byte. -/
def toRunes (l : List ℕ) : List ℕ := toRunesF l.length l

theorem toRunesF_congr : ∀ (f₁ f₂ : ℕ) (l : List ℕ), l.length ≤ f₁ → l.length ≤ f₂ →
    toRunesF f₁ l = toRunesF f₂ l := by
  intro f₁
  induction f₁ with
  | zero =>
    intro f₂ l h1 _
    match l, h1 with
    | [], _ => cases f₂ <;> rfl
  | succ g₁ ih =>
    intro f₂ l h1 h2
    match l with
    | [] => cases f₂ <;> rfl
    | b0 :: tl =>
      cases f₂ with
      | zero => simp at h2
      | succ g₂ =>
        show (match utf8Next (b0 :: tl) with
          | none => []
          | some (r, _, rest) => r :: toRunesF g₁ rest) =
          (match utf8Next (b0 :: tl) with
          | none => []
          | some (r, _, rest) => r :: toRunesF g₂ rest)
        match h : utf8Next (b0 :: tl) with
        | none => rfl
        | some (r, c, rest) =>
          have hlt := utf8Next_rest_lt h
          simp only [List.length_cons] at h1 h2 hlt
          show r :: toRunesF g₁ rest = r :: toRunesF g₂ rest
          rw [ih g₂ rest (by omega) (by omega)]

/-- The recurrence that `toRunes` satisfies (the fuel in its definition
is always sufficient). -/
theorem toRunes_eq (l : List ℕ) :
    toRunes l = match utf8Next l with
      | none => []
      | some (r, _, rest) => r :: toRunes rest := by
  match l with
  | [] => rfl
  | b0 :: tl =>
    match h : utf8Next (b0 :: tl) with
    | none =>
      unfold toRunes
      simp only [List.length_cons, toRunesF, h]
    | some (r, c, rest) =>
      have hlt := utf8Next_rest_lt h
      simp only [List.length_cons] at hlt
      unfold toRunes
      simp only [List.length_cons, toRunesF, h]
      rw [toRunesF_congr tl.length rest.length rest (by omega) le_rfl]

/-- Go's `string(r)` for a rune: UTF-8 encoding, with surrogates and
out-of-range values replaced by `U+FFFD` (bytes `EF BF BD`), as in Go's
`utf8.EncodeRune`. -/
def runeBytes (r : ℕ) : List ℕ :=
  if r < 0x80 then [r]
  else if r < 0x800 then [0xC0 + r / 0x40, 0x80 + r % 0x40]
  else if 0xD800 ≤ r ∧ r ≤ 0xDFFF then [0xEF, 0xBF, 0xBD]
  else if r < 0x10000 then [0xE0 + r / 0x1000, 0x80 + r / 0x40 % 0x40, 0x80 + r % 0x40]
  else if r ≤ 0x10FFFF then
    [0xF0 + r / 0x40000, 0x80 + r / 0x1000 % 0x40, 0x80 + r / 0x40 % 0x40, 0x80 + r % 0x40]
  else [0xEF, 0xBF, 0xBD]

example : toRunes [0xE2] = [0xFFFD] := by decide
example : toRunes [0xE2, 0x96, 0x81] = [0x2581] := by decide
example : runeBytes 0xFFFD = [0xEF, 0xBF, 0xBD] := by decide
example : runeBytes 0x2581 = [0xE2, 0x96, 0x81] := by decide

/-! ## Tokenizer data model (`tokenizer.go`)

`GGUFMetadata` keeps only the fields `NewTokenizer` reads.  `AddSpacePre`
models the Go field `AddSpacePrefix`.  Go maps built by ascending-index
iteration with overwriting (`tokenToID`, `mergePriority`, `specialTokens`)
are modelled as lookup functions returning the last matching index. -/

structure GGUFMetadata where
  TokenList : List (List ℕ)
  TokenScores : List ℚ
  TokenTypes : Option (List ℤ)
  TokenMerges : List (List ℕ)
  TokenModel : List ℕ
  VocabSize : ℤ
  BosID : ℤ
  EosID : ℤ
  AddSpacePre : Bool

structure Tokenizer where
  Vocab : List (List ℕ)
  Scores : List ℚ
  Types : Option (List ℤ)
  VocabSize : ℤ
  BosID : ℤ
  EosID : ℤ
  AddSpacePre : Bool
  IsGPT2 : Bool
  Merges : List (List ℕ)

/-- The bytes of the string `"gpt2"`. -/
def gpt2Bytes : List ℕ := [103, 112, 116, 50]

/-- `NewTokenizer` (tokenizer.go): the GPT-2 branch runs when
`meta.TokenModel == "gpt2" || (len(meta.TokenMerges) > 0 && len(meta.TokenScores) == 0)`;
it clears the add-space flag and loads the merge table. -/
def NewTokenizer (meta : GGUFMetadata) : Tokenizer :=
  let isG : Bool := decide (meta.TokenModel = gpt2Bytes) ||
    (decide (meta.TokenMerges ≠ []) && decide (meta.TokenScores = []))
  { Vocab := meta.TokenList
    Scores := meta.TokenScores
    Types := meta.TokenTypes
    VocabSize := meta.VocabSize
    BosID := meta.BosID
    EosID := meta.EosID
    AddSpacePre := if isG then false else meta.AddSpacePre
    IsGPT2 := isG
    Merges := if isG then meta.TokenMerges else [] }

/-- Index of the last occurrence of `s` in `l` (Go map semantics: the map
is filled by ascending iteration, later entries overwrite earlier ones). -/
def lastIdx : List (List ℕ) → List ℕ → Option ℕ
  | [], _ => none
  | a :: rest, s =>
    match lastIdx rest s with
    | some j => some (j + 1)
    | none => if a = s then some 0 else none

/-- `t.tokenToID[s]` (built in `NewTokenizer`). -/
def tokenToID (t : Tokenizer) (s : List ℕ) : Option ℕ := lastIdx t.Vocab s

/-- `t.byteTokens[b]`: id of the vocabulary entry `<0xNN>`, `none`
standing for the Go sentinel `-1`. -/
def byteTok (t : Tokenizer) (b : ℕ) : Option ℕ := tokenToID t (fmtByteToken b)

/-- `t.mergePriority[s]` (GPT-2 mode): rank of the merge string, i.e. its
last index in the merges table. -/
def mergeRank (t : Tokenizer) (s : List ℕ) : Option ℕ := lastIdx t.Merges s

/-- The `(token string, id)` pairs collected into `t.specialTokens`:
control tokens (type 3) whose string is longer than two bytes. -/
def specialTokensList (t : Tokenizer) : List (List ℕ × ℕ) :=
  match t.Types with
  | none => []
  | some ts =>
    (List.range ts.length).filterMap (fun i =>
      if ts.getD i 0 = 3 ∧ i < t.Vocab.length ∧ 2 < (t.Vocab.getD i []).length
      then some (t.Vocab.getD i [], i) else none)

/-- `t.specialTokens[s]` (map lookup; later duplicates overwrite). -/
def specialLookup (t : Tokenizer) (s : List ℕ) : Option ℕ :=
  (specialTokensList t).foldl
    (fun acc p => if p.1 = s then some p.2 else acc) none

theorem specialTokensList_len {t : Tokenizer} {tok : List ℕ} {i : ℕ}
    (h : (tok, i) ∈ specialTokensList t) : 2 < tok.length := by
  unfold specialTokensList at h
  match hty : t.Types with
  | none => rw [hty] at h; simp at h
  | some ts =>
    rw [hty] at h
    rw [List.mem_filterMap] at h
    obtain ⟨j, -, hj⟩ := h
    split at hj
    · rename_i hcond
      injection hj with hj
      cases hj
      exact hcond.2.2
    · simp at hj

/-! ## Special-token splitting (`splitOnSpecialTokens`) -/

/-- Whether `pat` occurs at the start of `hay`. -/
def startsWith : List ℕ → List ℕ → Bool
  | _, [] => true
  | [], _ :: _ => false
  | a :: as, b :: bs => a == b && startsWith as bs

/-- `strings.Index(hay, pat)`: first occurrence position, `none` for -1. -/
def indexOfSub : List ℕ → List ℕ → Option ℕ
  | hay, pat =>
    if startsWith hay pat then some 0
    else match hay with
      | [] => none
      | _ :: rest => (indexOfSub rest pat).map (· + 1)

/-- One fold step of the scan inside `splitOnSpecialTokens`, mirroring
Go's `pos >= 0 && (bestPos < 0 || pos < bestPos || (pos == bestPos && len(token) > bestLen))`
replacement rule. -/
def pickStep (text : List ℕ) (best : Option (ℕ × List ℕ)) (sp : List ℕ × ℕ) :
    Option (ℕ × List ℕ) :=
  match indexOfSub text sp.1 with
  | none => best
  | some pos =>
    match best with
    | none => some (pos, sp.1)
    | some (bpos, btok) =>
      if pos < bpos ∨ (pos = bpos ∧ btok.length < sp.1.length)
      then some (pos, sp.1) else best

/-- The scan inside `splitOnSpecialTokens`: earliest occurrence of any
special token, longest token on position ties.  Go iterates the
`specialTokens` map in unspecified order, but two distinct tokens cannot
match at the same position with the same length, so the
strictly-better-replaces rule has an order-independent outcome; we fold
in ascending vocabulary order. -/
def pickSpecial (text : List ℕ) (specials : List (List ℕ × ℕ)) :
    Option (ℕ × List ℕ) :=
  specials.foldl (pickStep text) none

theorem pickStep_out (text : List ℕ) (acc : Option (ℕ × List ℕ))
    (sp : List ℕ × ℕ) (pos : ℕ) (tok : List ℕ)
    (h : pickStep text acc sp = some (pos, tok)) :
    acc = some (pos, tok) ∨ tok = sp.1 := by
  unfold pickStep at h
  split at h
  · exact Or.inl h
  · split at h
    · simp only [Option.some.injEq, Prod.mk.injEq] at h
      exact Or.inr h.2.symm
    · split at h
      · simp only [Option.some.injEq, Prod.mk.injEq] at h
        exact Or.inr h.2.symm
      · exact Or.inl h

theorem pickFold_sound (text : List ℕ) :
    ∀ (l : List (List ℕ × ℕ)) (acc : Option (ℕ × List ℕ)) (pos : ℕ) (tok : List ℕ),
    l.foldl (pickStep text) acc = some (pos, tok) →
    (∃ p, acc = some (p, tok)) ∨ ∃ i, (tok, i) ∈ l := by
  intro l
  induction l with
  | nil =>
    intro acc pos tok h
    exact Or.inl ⟨pos, h⟩
  | cons sp rest ih =>
    intro acc pos tok h
    rw [List.foldl_cons] at h
    rcases ih (pickStep text acc sp) pos tok h with ⟨p, hp⟩ | ⟨i, hi⟩
    · rcases pickStep_out text acc sp p tok hp with hacc | htok
      · exact Or.inl ⟨p, hacc⟩
      · refine Or.inr ⟨sp.2, ?_⟩
        rw [htok, Prod.mk.eta]
        exact List.mem_cons_self _ _
    · exact Or.inr ⟨i, List.mem_cons_of_mem _ hi⟩

theorem pickSpecial_tok_mem {text : List ℕ} {specials : List (List ℕ × ℕ)}
    {pos : ℕ} {tok : List ℕ}
    (h : pickSpecial text specials = some (pos, tok)) :
    ∃ i, (tok, i) ∈ specials := by
  rcases pickFold_sound text specials none pos tok h with ⟨p, hp⟩ | hmem
  · cases hp
  · exact hmem

theorem startsWith_length : ∀ (hay pat : List ℕ), startsWith hay pat = true →
    pat.length ≤ hay.length := by
  intro hay
  induction hay with
  | nil =>
    intro pat h
    match pat with
    | [] => simp
    | _ :: _ => simp [startsWith] at h
  | cons a as ih =>
    intro pat h
    match pat with
    | [] => simp
    | b :: bs =>
      simp only [startsWith, Bool.and_eq_true] at h
      simpa using Nat.succ_le_succ (ih bs h.2)

theorem indexOfSub_none : ∀ (hay pat : List ℕ), hay.length < pat.length →
    indexOfSub hay pat = none := by
  intro hay
  induction hay with
  | nil =>
    intro pat h
    match pat, h with
    | p :: ps, _ =>
      simp [indexOfSub, startsWith]
  | cons a as ih =>
    intro pat h
    simp only [List.length_cons] at h
    have hns : ¬ startsWith (a :: as) pat = true := by
      intro hs
      have hl := startsWith_length _ _ hs
      simp only [List.length_cons] at hl
      omega
    unfold indexOfSub
    rw [if_neg hns]
    show (indexOfSub as pat).map (· + 1) = none
    rw [ih pat (by omega)]
    rfl

theorem pickFold_id (text : List ℕ) :
    ∀ (l : List (List ℕ × ℕ)) (acc : Option (ℕ × List ℕ)),
    (∀ sp ∈ l, indexOfSub text sp.1 = none) →
    l.foldl (pickStep text) acc = acc := by
  intro l
  induction l with
  | nil => intro acc _; rfl
  | cons sp rest ih =>
    intro acc hall
    rw [List.foldl_cons]
    have hsp : pickStep text acc sp = acc := by
      unfold pickStep
      rw [hall sp (List.mem_cons_self _ _)]
    rw [hsp]
    exact ih acc (fun q hq => hall q (List.mem_cons_of_mem _ hq))

/-- Fuel-indexed segmentation loop of `splitOnSpecialTokens`; each
iteration consumes at least the matched token (length > 2), so the
initial fuel `text.length` always suffices. -/
def splitSpecGoF (t : Tokenizer) : ℕ → List ℕ → List (List ℕ)
  | _, [] => []
  | 0, _ :: _ => []
  | fuel + 1, r0 :: rrest =>
    match pickSpecial (r0 :: rrest) (specialTokensList t) with
    | none => [r0 :: rrest]
    | some (pos, tok) =>
      (if 0 < pos then [(r0 :: rrest).take pos] else []) ++ tok ::
        splitSpecGoF t fuel ((r0 :: rrest).drop (pos + tok.length))

/-- `splitOnSpecialTokens` (tokenizer.go). -/
def splitOnSpecialTokens (t : Tokenizer) (text : List ℕ) : List (List ℕ) :=
  if specialTokensList t = [] then [text]
  else splitSpecGoF t text.length text

/-! ## BPE merging (`bpeMergeScores`, `bpeMergeGPT2`) -/

/-- Replace the adjacent pair at `i` by its concatenation (the slice
surgery at the bottom of both Go merge loops). -/
def mergeAt (symbols : List (List ℕ)) (i : ℕ) : List (List ℕ) :=
  symbols.take i ++ [symbols.getD i [] ++ symbols.getD (i + 1) []] ++
    symbols.drop (i + 2)

theorem mergeAt_length {symbols : List (List ℕ)} {i : ℕ}
    (h : i + 1 < symbols.length) :
    (mergeAt symbols i).length = symbols.length - 1 := by
  unfold mergeAt
  simp only [List.length_append, List.length_take, List.length_drop,
    List.length_cons, List.length_nil]
  omega

/-- Mergeable adjacent pairs of the SentencePiece loop: index plus the
score of the concatenated token, for pairs whose concatenation is in the
vocabulary (with the `id < len(t.Scores)` guard of the source). -/
def spCandidates (t : Tokenizer) (symbols : List (List ℕ)) : List (ℕ × ℚ) :=
  (List.range (symbols.length - 1)).filterMap (fun i =>
    match tokenToID t (symbols.getD i [] ++ symbols.getD (i + 1) []) with
    | some id => if id < t.Scores.length then some (i, t.Scores.getD id 0) else none
    | none => none)

/-- The `score > bestScore` scan with initial `bestScore = -1e30` and
`bestIdx = -1` (`none`); earliest index wins ties. -/
def bestByScore (cands : List (ℕ × ℚ)) : Option ℕ × ℚ :=
  cands.foldl (fun best c => if best.2 < c.2 then (some c.1, c.2) else best)
    (none, -(10 ^ 30 : ℚ))

/-- One search pass of `bpeMergeScores`. -/
def findBestSPMerge (t : Tokenizer) (symbols : List (List ℕ)) : Option ℕ :=
  (bestByScore (spCandidates t symbols)).1

/-- Mergeable adjacent pairs of the GPT-2 loop: index plus the rank of
the space-joined pair in the merge table. -/
def gptCandidates (t : Tokenizer) (symbols : List (List ℕ)) : List (ℕ × ℕ) :=
  (List.range (symbols.length - 1)).filterMap (fun i =>
    match mergeRank t (symbols.getD i [] ++ 32 :: symbols.getD (i + 1) []) with
    | some rank => some (i, rank)
    | none => none)

/-- The `rank < bestRank` scan with initial
`bestRank = len(t.mergePriority) + 1`. -/
def bestByRank (t : Tokenizer) (cands : List (ℕ × ℕ)) : Option ℕ :=
  (cands.foldl (fun best c => if c.2 < best.2 then (some c.1, c.2) else best)
    (none, t.Merges.length + 1)).1

/-- One search pass of `bpeMergeGPT2`. -/
def findBestGPTMerge (t : Tokenizer) (symbols : List (List ℕ)) : Option ℕ :=
  bestByRank t (gptCandidates t symbols)

/-- Fuel-indexed greedy merge loop shared by both modes; fuel
`symbols.length` always suffices because each merge shortens the list
(see `mergeLoopF_congr`). -/
def mergeLoopF (find : List (List ℕ) → Option ℕ) :
    ℕ → List (List ℕ) → List (List ℕ)
  | 0, symbols => symbols
  | fuel + 1, symbols =>
    match find symbols with
    | none => symbols
    | some i => mergeLoopF find fuel (mergeAt symbols i)

/-- `bpeMergeScores` (tokenizer.go). -/
def bpeMergeScores (t : Tokenizer) (symbols : List (List ℕ)) : List (List ℕ) :=
  mergeLoopF (findBestSPMerge t) symbols.length symbols

/-- `bpeMergeGPT2` (tokenizer.go). -/
def bpeMergeGPT2 (t : Tokenizer) (symbols : List (List ℕ)) : List (List ℕ) :=
  mergeLoopF (findBestGPTMerge t) symbols.length symbols

/-- `bpeMerge` (tokenizer.go): dispatch on the tokenizer mode. -/
def bpeMerge (t : Tokenizer) (symbols : List (List ℕ)) : List (List ℕ) :=
  if t.IsGPT2 then bpeMergeGPT2 t symbols else bpeMergeScores t symbols

theorem bestFold_sound {α : Type} :
    ∀ (l : List (ℕ × α)) (step : (Option ℕ × α) → (ℕ × α) → (Option ℕ × α)),
    (∀ acc c, (step acc c).1 = acc.1 ∨ (step acc c).1 = some c.1) →
    ∀ (acc : Option ℕ × α) (i : ℕ), (l.foldl step acc).1 = some i →
    acc.1 = some i ∨ ∃ x, (i, x) ∈ l := by
  intro l
  induction l with
  | nil =>
    intro step _ acc i h
    exact Or.inl h
  | cons c rest ih =>
    intro step hstep acc i h
    rw [List.foldl_cons] at h
    rcases ih step hstep (step acc c) i h with hacc | ⟨x, hx⟩
    · rcases hstep acc c with h1 | h1
      · rw [h1] at hacc
        exact Or.inl hacc
      · rw [h1] at hacc
        injection hacc with hacc
        refine Or.inr ⟨c.2, ?_⟩
        rw [← hacc, Prod.mk.eta]
        exact List.mem_cons_self _ _
    · exact Or.inr ⟨x, List.mem_cons_of_mem _ hx⟩

theorem findBestSPMerge_lt {t : Tokenizer} {symbols : List (List ℕ)} {i : ℕ}
    (h : findBestSPMerge t symbols = some i) : i + 1 < symbols.length := by
  unfold findBestSPMerge bestByScore at h
  have hsound := bestFold_sound (spCandidates t symbols)
    (fun best c => if best.2 < c.2 then (some c.1, c.2) else best)
    (fun acc c => by dsimp only; split <;> [exact Or.inr rfl; exact Or.inl rfl])
    (none, -(10 ^ 30 : ℚ)) i h
  rcases hsound with hacc | ⟨x, hx⟩
  · cases hacc
  · unfold spCandidates at hx
    rw [List.mem_filterMap] at hx
    obtain ⟨j, hjmem, hj⟩ := hx
    rw [List.mem_range] at hjmem
    have : j = i := by
      split at hj
      · split at hj
        · injection hj with hj
          exact (Prod.mk.injEq _ _ _ _ ▸ hj).1
        · cases hj
      · cases hj
    omega

theorem findBestGPTMerge_lt {t : Tokenizer} {symbols : List (List ℕ)} {i : ℕ}
    (h : findBestGPTMerge t symbols = some i) : i + 1 < symbols.length := by
  unfold findBestGPTMerge bestByRank at h
  have hsound := bestFold_sound (gptCandidates t symbols)
    (fun best c => if c.2 < best.2 then (some c.1, c.2) else best)
    (fun acc c => by dsimp only; split <;> [exact Or.inr rfl; exact Or.inl rfl])
    (none, t.Merges.length + 1) i h
  rcases hsound with hacc | ⟨x, hx⟩
  · cases hacc
  · unfold gptCandidates at hx
    rw [List.mem_filterMap] at hx
    obtain ⟨j, hjmem, hj⟩ := hx
    rw [List.mem_range] at hjmem
    have : j = i := by
      split at hj
      · injection hj with hj
        exact (Prod.mk.injEq _ _ _ _ ▸ hj).1
      · cases hj
    omega

theorem mergeLoopF_congr (find : List (List ℕ) → Option ℕ)
    (hfind : ∀ s i, find s = some i → i + 1 < s.length) :
    ∀ (f₁ f₂ : ℕ) (symbols : List (List ℕ)),
    symbols.length ≤ f₁ + 1 → symbols.length ≤ f₂ + 1 →
    mergeLoopF find f₁ symbols = mergeLoopF find f₂ symbols := by
  intro f₁
  induction f₁ with
  | zero =>
    intro f₂ symbols h1 _
    match f₂ with
    | 0 => rfl
    | g₂ + 1 =>
      show mergeLoopF find 0 symbols =
        (match find symbols with
         | none => symbols
         | some i => mergeLoopF find g₂ (mergeAt symbols i))
      match hf : find symbols with
      | none => rfl
      | some i =>
        have := hfind symbols i hf
        omega
  | succ g₁ ih =>
    intro f₂ symbols h1 h2
    match f₂ with
    | 0 =>
      show (match find symbols with
         | none => symbols
         | some i => mergeLoopF find g₁ (mergeAt symbols i)) =
        mergeLoopF find 0 symbols
      match hf : find symbols with
      | none => rfl
      | some i =>
        have := hfind symbols i hf
        omega
    | g₂ + 1 =>
      show (match find symbols with
         | none => symbols
         | some i => mergeLoopF find g₁ (mergeAt symbols i)) =
        (match find symbols with
         | none => symbols
         | some i => mergeLoopF find g₂ (mergeAt symbols i))
      match hf : find symbols with
      | none => rfl
      | some i =>
        have hlt := hfind symbols i hf
        have hlen := mergeAt_length hlt
        exact ih g₂ (mergeAt symbols i) (by omega) (by omega)

/-- The recurrence satisfied by `bpeMergeScores` (the fuel in its
definition always suffices): the greedy loop of tokenizer.go. -/
theorem bpeMergeScores_eq (t : Tokenizer) (symbols : List (List ℕ)) :
    bpeMergeScores t symbols =
      match findBestSPMerge t symbols with
      | none => symbols
      | some i => bpeMergeScores t (mergeAt symbols i) := by
  unfold bpeMergeScores
  match hf : findBestSPMerge t symbols with
  | none =>
    match hl : symbols.length with
    | 0 => rfl
    | n + 1 =>
      show (match findBestSPMerge t symbols with
        | none => symbols
        | some i => mergeLoopF (findBestSPMerge t) n (mergeAt symbols i)) = symbols
      rw [hf]
  | some i =>
    have hlt := findBestSPMerge_lt hf
    match hl : symbols.length, hlt with
    | n + 1, _ =>
      show (match findBestSPMerge t symbols with
        | none => symbols
        | some j => mergeLoopF (findBestSPMerge t) n (mergeAt symbols j)) = _
      rw [hf]
      have hlen := mergeAt_length hlt
      exact mergeLoopF_congr (findBestSPMerge t) (fun s j h => findBestSPMerge_lt h)
        n (mergeAt symbols i).length (mergeAt symbols i) (by omega) (by omega)

/-! ## Encoding (`Encode` and helpers) -/

/-- `symbolsToIDs` (tokenizer.go): look up each symbol; a symbol missing
from the vocabulary falls back to its bytes through `byteTokens`, and
bytes whose entry is `-1` (`none`) are dropped. -/
def symbolsToIDs (t : Tokenizer) (symbols : List (List ℕ)) : List ℤ :=
  symbols.flatMap (fun sym =>
    match tokenToID t sym with
    | some id => [(id : ℤ)]
    | none => sym.filterMap (fun b => (byteTok t b).map (fun id => (id : ℤ))))

/-- `initialTokenizeSP` (tokenizer.go): one symbol per rune when the
rune's string is in the vocabulary, else one `<0xNN>` symbol per UTF-8
byte of that rune's string. -/
def initialTokenizeSP (t : Tokenizer) (text : List ℕ) : List (List ℕ) :=
  (toRunes text).flatMap (fun r =>
    let ch := runeBytes r
    match tokenToID t ch with
    | some _ => [ch]
    | none => ch.map fmtByteToken)

/-- `strings.ReplaceAll(text, " ", "▁")`: the pattern is the single byte
`0x20`, so this is a per-byte expansion. -/
def replaceSpaces (l : List ℕ) : List ℕ :=
  l.flatMap (fun b => if b = 32 then [0xE2, 0x96, 0x81] else [b])

/-- `encodeGPT2` (tokenizer.go): one symbol per input byte — the byte
itself if its one-byte string is in the vocabulary, else `<0xNN>`. -/
def encodeGPT2 (t : Tokenizer) (text : List ℕ) : List ℤ :=
  let symbols := text.map (fun b =>
    match tokenToID t [b] with
    | some _ => [b]
    | none => fmtByteToken b)
  symbolsToIDs t (bpeMerge t symbols)

/-- `encodeSentencePiece` (tokenizer.go): dispatch to GPT-2 byte-level
encoding, or the SentencePiece path (optional space prepend, space to
`▁`, per-rune symbols, score merges, id mapping). -/
def encodeSentencePiece (t : Tokenizer) (text : List ℕ) : List ℤ :=
  if t.IsGPT2 then encodeGPT2 t text
  else
    let text1 := if t.AddSpacePre ∧ text ≠ [] ∧ text.headD 0 ≠ 32
      then 32 :: text else text
    let text2 := replaceSpaces text1
    symbolsToIDs t (bpeMerge t (initialTokenizeSP t text2))

/-- `Encode` (tokenizer.go): optional BOS, then per-segment encoding with
special tokens emitted as single ids. -/
def Encode (t : Tokenizer) (text : List ℕ) (addBos : Bool) : List ℤ :=
  let tokens : List ℤ := if addBos ∧ 0 ≤ t.BosID then [t.BosID] else []
  if text = [] then tokens
  else tokens ++ (splitOnSpecialTokens t text).flatMap (fun seg =>
    match specialLookup t seg with
    | some id => [(id : ℤ)]
    | none => encodeSentencePiece t seg)

/-! ## Decoding (`Decode`, `DecodeToken`, GPT-2 unmapping) -/

/-- The printable byte ranges of the GPT-2 byte↔unicode table
(33–126, 161–172, 174–255), which map to themselves. -/
def gpt2Printable (b : ℕ) : Bool :=
  decide ((33 ≤ b ∧ b ≤ 126) ∨ (161 ≤ b ∧ b ≤ 172) ∨ (174 ≤ b ∧ b ≤ 255))

/-- The non-printable bytes in ascending order; byte `n`-th of this list
is keyed by rune `256 + n` in the GPT-2 table. -/
def gpt2NonPrintables : List ℕ :=
  (List.range 256).filter (fun b => ! gpt2Printable b)

/-- `gpt2UnicodeToByteMap` built in `init()` (tokenizer.go). -/
def gpt2UnicodeToByte (r : ℕ) : Option ℕ :=
  if gpt2Printable r then some r
  else if 256 ≤ r then gpt2NonPrintables.get? (r - 256)
  else none

/-- Fuel-indexed `gpt2DecodePiece` (tokenizer.go): per decoded rune, map
through the GPT-2 table or pass the consumed bytes through unchanged.
Fuel `piece.length` always suffices (each step consumes ≥ 1 byte). -/
def gpt2DecodePieceF : ℕ → List ℕ → List ℕ
  | _, [] => []
  | 0, _ :: _ => []
  | fuel + 1, b0 :: tl =>
    match utf8Next (b0 :: tl) with
    | none => []
    | some (r, consumed, rest) =>
      (match gpt2UnicodeToByte r with
       | some b => [b]
       | none => consumed) ++ gpt2DecodePieceF fuel rest

/-- `gpt2DecodePiece` (tokenizer.go). -/
def gpt2DecodePiece (piece : List ℕ) : List ℕ :=
  gpt2DecodePieceF piece.length piece

/-- `strings.ReplaceAll(piece, "▁", " ")`: left-to-right non-overlapping
replacement of the three bytes `E2 96 81` by one space. -/
def replaceSep : List ℕ → List ℕ
  | [] => []
  | b :: rest =>
    if b = 0xE2 then
      match rest with
      | r1 :: r2 :: rest2 =>
        if r1 = 0x96 ∧ r2 = 0x81 then 32 :: replaceSep rest2
        else b :: replaceSep (r1 :: r2 :: rest2)
      | r => b :: replaceSep r
    else b :: replaceSep rest

/-- The byte-fallback shape test of `Decode` / `DecodeToken`: length six
with bytes `<`, `0`, `x` at 0–2 and `>` at 5 (bytes 3–4 unchecked here;
they go through `fmt.Sscanf`). -/
def isBytePattern (piece : List ℕ) : Bool :=
  decide (piece.length = 6) && (piece.getD 0 0 == 60) && (piece.getD 1 0 == 48) &&
    (piece.getD 2 0 == 120) && (piece.getD 5 0 == 62)

/-- The control-token test of `Decode`:
`t.Types != nil && id < len(t.Types) && t.Types[id] == 3`. -/
def isControlIdx (t : Tokenizer) (id : ℕ) : Bool :=
  match t.Types with
  | none => false
  | some ts => decide (id < ts.length) && (ts.getD id 0 == 3)

/-- Byte contribution of one id inside `Decode`'s loop. -/
def decodeOne (t : Tokenizer) (id : ℤ) : List ℕ :=
  if id < 0 ∨ t.VocabSize ≤ id then []
  else
    let piece := t.Vocab.getD id.toNat []
    if isControlIdx t id.toNat then []
    else if isBytePattern piece then
      [sscanfHexByte (piece.getD 3 0) (piece.getD 4 0)]
    else if t.IsGPT2 then gpt2DecodePiece piece
    else replaceSep piece

/-- `Decode` (tokenizer.go): concatenate per-id contributions, then trim
one leading space when the add-space flag is set. -/
def Decode (t : Tokenizer) (ids : List ℤ) : List ℕ :=
  let result := ids.flatMap (decodeOne t)
  if t.AddSpacePre ∧ result ≠ [] ∧ result.headD 0 = 32
  then result.tail else result

/-- `DecodeToken` (tokenizer.go): single-id decoding.  Unlike `Decode`
it has no control-token test. -/
def DecodeToken (t : Tokenizer) (id : ℤ) : List ℕ :=
  if id < 0 ∨ t.VocabSize ≤ id then []
  else
    let piece := t.Vocab.getD id.toNat []
    if isBytePattern piece then
      [sscanfHexByte (piece.getD 3 0) (piece.getD 4 0)]
    else if t.IsGPT2 then gpt2DecodePiece piece
    else replaceSep piece

/-! ## Sampling kernels (`wtf.go`)

`math.Exp` is passed in as an abstract `E : ℚ → ℚ`; random draws
(`gRNG.Float32()`, values in `[0,1)`) are passed in as `u : ℚ`. -/

/-- `argmax` (wtf.go): first index of the maximal logit
(`logits[i] > logits[best]` replaces strictly). -/
def argmax (logits : List ℚ) : ℤ :=
  ((logits.enum).foldl (fun best p => if best.2 < p.2 then p else best)
    (0, logits.headD 0)).1

/-- The running-maximum scan at the top of `sampleTopP`
(`maxVal := logits[0]; if logits[i] > maxVal { maxVal = logits[i] }`). -/
def goMax (logits : List ℚ) : ℚ :=
  logits.foldl (fun m l => if m < l then l else m) (logits.headD 0)

/-- The temperature softmax of `sampleTopP`: `p_i = E((l_i - max)/T)`,
then multiplication by `invSum = 1/sum`. -/
def softmaxProbs (E : ℚ → ℚ) (temp : ℚ) (logits : List ℚ) : List ℚ :=
  let m := goMax logits
  let ps := logits.map (fun l => E ((l - m) / temp))
  let s := ps.sum
  ps.map (fun p => p * (1 / s))

/-- The candidate array `sb.candidates[:vocab]` right before the sort:
`(idx, prob)` pairs in ascending index order. -/
def candidatesOf (E : ℚ → ℚ) (temp : ℚ) (logits : List ℚ) : List (ℤ × ℚ) :=
  (softmaxProbs E temp logits).enum.map (fun p => ((p.1 : ℤ), p.2))

/-- What Go's `sort.Slice(..., func(i,j) { return c[i].prob > c[j].prob })`
guarantees about its result: a permutation of the input that is
non-increasing in probability.  `sort.Slice` is documented as NOT stable,
so the order of equal-probability entries is left unconstrained: any
`cs'` satisfying this predicate is a possible outcome. -/
def IsSortOutcome (E : ℚ → ℚ) (temp : ℚ) (logits : List ℚ)
    (cs' : List (ℤ × ℚ)) : Prop :=
  List.Perm (candidatesOf E temp logits) cs' ∧
    cs'.Sorted (fun a b => b.2 ≤ a.2)

/-- The `cumsum >= topP` scan of `sampleTopP`: index of the first
position where the running sum reaches `τ`. -/
def cutIdxAux (τ : ℚ) : List (ℤ × ℚ) → ℚ → Option ℕ
  | [], _ => none
  | c :: rest, acc =>
    if τ ≤ acc + c.2 then some 0
    else (cutIdxAux τ rest (acc + c.2)).map (· + 1)

/-- Nucleus cutoff: smallest `i` with `p_0 + ... + p_i ≥ τ` in the given
(sorted) candidate list. -/
def cutIdx (cs : List (ℤ × ℚ)) (τ : ℚ) : Option ℕ := cutIdxAux τ cs 0

/-- The inner cdf walk of both samplers: accumulate probabilities and
return the first id whose running total reaches `r`. -/
def walkCdf : List (ℤ × ℚ) → ℚ → ℚ → Option ℤ
  | [], _, _ => none
  | c :: rest, r, cdf =>
    if r ≤ cdf + c.2 then some c.1 else walkCdf rest r (cdf + c.2)

/-- Ids selectable by `sampleTopP` once the sort outcome is fixed: the
prefix up to the nucleus cutoff, or the head as Go's fallback
(`return sb.candidates[0].idx`) when no prefix reaches `τ`. -/
def nucleusIds (cs : List (ℤ × ℚ)) (τ : ℚ) : List ℤ :=
  match cutIdx cs τ with
  | some i => (cs.take (i + 1)).map (·.1)
  | none => [(cs.headD (0, 0)).1]

/-- The tail of `sampleTopP` after the sort: find the nucleus, draw
`r := u * cumsum`, walk the cdf over the prefix, with Go's two
`candidates[0].idx` fallbacks. -/
def sampleTopPSorted (cs : List (ℤ × ℚ)) (τ : ℚ) (u : ℚ) : ℤ :=
  match cutIdx cs τ with
  | some i =>
    let pre := cs.take (i + 1)
    let cumsum := (pre.map (fun c => c.2)).sum
    match walkCdf pre (u * cumsum) 0 with
    | some idx => idx
    | none => (cs.headD (0, 0)).1
  | none => (cs.headD (0, 0)).1

/-- `sampleTopP` (wtf.go) as run inside the generation loop.  The sort
step instantiates `IsSortOutcome` with a concrete sorted permutation
(insertion sort by non-increasing probability); theorems about the
unstable `sort.Slice` quantify over all outcomes via `IsSortOutcome`. -/
def sampleTopP (E : ℚ → ℚ) (temp τ u : ℚ) (logits : List ℚ) : ℤ :=
  if temp ≤ 0 then argmax logits
  else sampleTopPSorted
    (List.insertionSort (fun a b => b.2 ≤ a.2) (candidatesOf E temp logits)) τ u

/-- The bubble-up insertion of `sampleTopK`: the new entry rises while it
is strictly greater than its predecessor, i.e. it lands after all
entries with value ≥ its own. -/
def insDesc (entry : ℤ × ℚ) : List (ℤ × ℚ) → List (ℤ × ℚ)
  | [] => [entry]
  | c :: rest => if entry.2 ≤ c.2 then c :: insDesc entry rest else entry :: c :: rest

/-- One iteration of `sampleTopK`'s selection scan: replace the last
buffer slot when the new logit beats it, then bubble up. -/
def topKStep (buf : List (ℤ × ℚ)) (entry : ℤ × ℚ) : List (ℤ × ℚ) :=
  match buf.getLast? with
  | none => buf
  | some last => if last.2 < entry.2 then insDesc entry buf.dropLast else buf

/-- The filled top-k buffer after the selection scan, starting from the
reset state `topIdx[i] = -1, topVal[i] = -1e30`. -/
def topKBuf (logits : List ℚ) (k : ℕ) : List (ℤ × ℚ) :=
  logits.enum.foldl (fun buf p => topKStep buf ((p.1 : ℤ), p.2))
    (List.replicate k ((-1 : ℤ), -(10 ^ 30 : ℚ)))

/-- `sampleTopK` (wtf.go).  The softmax loop breaks at the first unfilled
slot (`topIdx[i] < 0`); the cdf walk then runs over the filled prefix —
behaviourally identical to Go's walk over all `topK` slots, whose
probabilities beyond the break contribute zero. -/
def sampleTopK (E : ℚ → ℚ) (temp : ℚ) (k : ℕ) (u : ℚ) (logits : List ℚ) : ℤ :=
  if temp ≤ 0 then argmax logits
  else
    let k2 := min k logits.length
    let buf := topKBuf logits k2
    let filled := buf.takeWhile (fun c => decide (0 ≤ c.1))
    let m := (buf.headD ((-1 : ℤ), 0)).2
    let pairs := filled.map (fun c => (c.1, E ((c.2 - m) / temp)))
    let s := (pairs.map (fun c => c.2)).sum
    match walkCdf pairs (u * s) 0 with
    | some idx => idx
    | none => (buf.headD ((-1 : ℤ), 0)).1

/-! ## Penalties (`wtf_generate`, wtf.go) -/

/-- In-place update of one array slot (`logits[tok] = ...`). -/
def updAt : List ℚ → ℕ → (ℚ → ℚ) → List ℚ
  | [], _, _ => []
  | x :: rest, 0, f => f x :: rest
  | x :: rest, n + 1, f => x :: updAt rest n f

/-- One repetition-penalty update:
`if logit > 0 { logit / ρ } else { logit * ρ }`. -/
def repStep (ρ l : ℚ) : ℚ := if 0 < l then l / ρ else l * ρ

/-- The repetition-penalty loop: one `repStep` per OCCURRENCE of a token
in the sliding window (`for _, tok := range recentTokens`). -/
def applyRepPen (ρ : ℚ) (recent : List ℤ) (logits : List ℚ) : List ℚ :=
  recent.foldl (fun lg tok => updAt lg tok.toNat (repStep ρ)) logits

/-- The frequency-penalty loop (`for tok, count := range tokenCounts`):
map-iteration order is irrelevant because each entry updates a distinct
logit slot, so we apply the updates pointwise by index. -/
def applyFreqPen (φ : ℚ) (counts : ℤ → Option ℤ) (logits : List ℚ) : List ℚ :=
  logits.enum.map (fun p =>
    match counts (p.1 : ℤ) with
    | some c => p.2 - φ * (c : ℚ)
    | none => p.2)

/-! ## Generation loop (`wtf_generate`, wtf.go)

The transformer (`model.go`) is not part of the provided sources; it is
abstracted as `M : List ℤ → List ℚ`, the logits the model holds after
having been fed a given token sequence (positions are determined by the
sequence).  The `tokenCounts` Go map is a function `ℤ → Option ℤ`
(`none` = no entry). -/

structure GenParams where
  tok : Tokenizer
  M : List ℤ → List ℚ
  E : ℚ → ℚ
  rng : ℕ → ℚ
  seqLen : ℤ
  tempFloor : ℚ
  repPenalty : ℚ
  repWindow : ℤ
  freqPenalty : ℚ

structure GenCall where
  maxTok : ℤ
  maxOut : ℤ
  temp : ℚ
  tp : ℚ

structure GenState where
  output : List ℕ
  genCount : ℤ
  recent : List ℤ
  counts : ℤ → Option ℤ
  pos : ℤ
  hist : List ℤ
  rngIdx : ℕ
  sampled : List ℤ
  emitted : List ℤ

/-- Why the decode loop ended (instrumentation; Go only `break`s). -/
inductive StopReason
  | budget | outputFull | grace | eos | cycle | cjk | seqCap
deriving DecidableEq

structure GenResult where
  state : GenState
  reason : StopReason
  iters : ℕ

/-- `tokenCounts[next]++` (insert or increment). -/
def bumpCount (counts : ℤ → Option ℤ) (next : ℤ) : ℤ → Option ℤ :=
  fun k => if k = next then some ((counts next).getD 0 + 1) else counts k

/-- `tokenCounts[leaving]--; if tokenCounts[leaving] <= 0 { delete }`. -/
def dropCount (counts : ℤ → Option ℤ) (leaving : ℤ) : ℤ → Option ℤ :=
  fun k => if k = leaving then
      (if (counts leaving).getD 0 - 1 ≤ 0 then none
       else some ((counts leaving).getD 0 - 1))
    else counts k

/-- The window update of `wtf_generate`: count the chosen id, append it,
and when the window exceeds `W` retire the head (`recentTokens[0]`,
written `headD 0` — the appended window is never empty) and decrement
its count (deleting the entry at zero). -/
def stepWindow (W : ℤ) (s : List ℤ × (ℤ → Option ℤ)) (next : ℤ) :
    List ℤ × (ℤ → Option ℤ) :=
  if W < ((s.1 ++ [next]).length : ℤ) then
    ((s.1 ++ [next]).tail,
      dropCount (bumpCount s.2 next) ((s.1 ++ [next]).headD 0))
  else (s.1 ++ [next], bumpCount s.2 next)

/-- Cycle detection: the last 8 window entries equal the preceding 8
(requires at least 16 entries). -/
def isCycle (recent : List ℤ) : Bool :=
  decide (16 ≤ recent.length) &&
    (List.range 8).all (fun k =>
      recent.getD (recent.length - 1 - k) 0 == recent.getD (recent.length - 9 - k) 0)

/-- The drift guard of `wtf_generate`: Go's `for _, b := range piece`
iterates RUNES of the decoded piece (not bytes, despite the comment in
the source), so this tests whether any code point is `≥ 0xE0`. -/
def hasCJK (piece : List ℕ) : Bool :=
  (toRunes piece).any (fun r => decide (0xE0 ≤ r))

/-- The grace-stop byte set `{'.', '!', '?', '\n'}`. -/
def isStopByte (b : ℕ) : Bool := b == 46 || b == 33 || b == 63 || b == 10

/-- The sampling step of one decode iteration: read the current logits,
apply the repetition penalty (when `ρ > 1`) then the frequency penalty
(when `φ > 0`), and sample with top-p (`tp < 1`) or top-k (k = 50). -/
def sampleNext (P : GenParams) (C : GenCall) (s : GenState) : ℤ :=
  let logits0 := P.M s.hist
  let logits1 := if 1 < P.repPenalty
    then applyRepPen P.repPenalty s.recent logits0 else logits0
  let logits2 := if 0 < P.freqPenalty
    then applyFreqPen P.freqPenalty s.counts logits1 else logits1
  if C.tp < 1 then sampleTopP P.E C.temp C.tp (P.rng s.rngIdx) logits2
  else sampleTopK P.E C.temp 50 (P.rng s.rngIdx) logits2

/-- State change of the "update frequency counts + sliding window" block
(one RNG draw was consumed by the sample). -/
def stepSample (P : GenParams) (s : GenState) (next : ℤ) : GenState :=
  let w := stepWindow P.repWindow (s.recent, s.counts) next
  { s with
    recent := w.1
    counts := w.2
    rngIdx := s.rngIdx + 1
    sampled := s.sampled ++ [next] }

/-- State change of the emit block: append the decoded piece, feed the
token to the model (`Forward`), advance the position. -/
def stepEmit (s : GenState) (next : ℤ) (piece : List ℕ) : GenState :=
  { s with
    output := s.output ++ piece
    emitted := s.emitted ++ [next]
    hist := s.hist ++ [next]
    pos := s.pos + 1
    genCount := s.genCount + 1 }

/-- The part of the loop body after a token has been sampled: window
update, EOS stop, cycle stop, decode, drift stop, emit, sequence cap;
`k` is the continuation running the remaining iterations. -/
def genAfterSample (P : GenParams) (s : GenState) (next : ℤ)
    (k : GenState → GenResult) : GenResult :=
  let s1 := stepSample P s next
  if next = P.tok.EosID then ⟨s1, .eos, 1⟩
  else if isCycle s1.recent then ⟨s1, .cycle, 1⟩
  else
    let piece := DecodeToken P.tok next
    if hasCJK piece ∧ 5 < s.genCount then ⟨s1, .cjk, 1⟩
    else
      let s2 := stepEmit s1 next piece
      if P.seqLen ≤ s2.pos then ⟨s2, .seqCap, 1⟩
      else
        let r := k s2
        ⟨r.state, r.reason, r.iters + 1⟩

/-- The decode loop of `wtf_generate`.  `fuel` counts the remaining
iterations of `for i := 0; i < maxTok+graceLimit ...` (the caller passes
`(maxTok + 32).toNat`), `i` is the Go loop index (the flag `inGrace`
holds exactly when `maxTok ≤ i`), and `iters` in the result counts how
many times the loop body started executing from here on. -/
def genLoopF (P : GenParams) (C : GenCall) : ℕ → ℕ → GenState → GenResult
  | 0, _, s => ⟨s, .budget, 0⟩
  | fuel + 1, i, s =>
    if ¬ ((s.output.length : ℤ) < C.maxOut) then ⟨s, .outputFull, 0⟩
    else if C.maxTok ≤ (i : ℤ) ∧ s.output ≠ [] ∧
        isStopByte (s.output.getLast?.getD 0) then
      ⟨s, .grace, 1⟩
    else genAfterSample P s (sampleNext P C s) (genLoopF P C fuel (i + 1))

/-- The prefill loop: feed tokens at consecutive positions, stopping
once `pos ≥ SeqLen - 1`; returns the fed tokens and the final position. -/
def prefillF (seqLen : ℤ) : ℤ → List ℤ → (List ℤ × ℤ)
  | pos, [] => ([], pos)
  | pos, tok :: rest =>
    let pos1 := pos + 1
    if seqLen - 1 ≤ pos1 then ([tok], pos1)
    else
      let r := prefillF seqLen pos1 rest
      (tok :: r.1, r.2)

/-- `allTokens` of `wtf_generate`: optional BOS (only when it differs
from EOS), raw anchor tokens, raw user tokens. -/
def buildAllTokens (t : Tokenizer) (anchor prompt : List ℕ) : List ℤ :=
  (if 0 ≤ t.BosID ∧ t.BosID ≠ t.EosID then [t.BosID] else []) ++
  (if anchor ≠ [] then Encode t anchor false else []) ++
  Encode t prompt false

/-- `wtf_generate` (wtf.go): clamp the temperature to the floor, build
and prefill the prompt tokens, then run the decode loop for at most
`maxTokens + graceLimit` iterations.  (The final copy into the C buffer,
which truncates `output` to `maxOut` bytes, is outside the loop and not
modelled.) -/
def wtf_generate (P : GenParams) (prompt anchor : List ℕ)
    (maxTokens maxOutputLen : ℤ) (temperature topP : ℚ) : GenResult :=
  let temp := if temperature < P.tempFloor then P.tempFloor else temperature
  let C : GenCall := { maxTok := maxTokens, maxOut := maxOutputLen - 1, temp := temp, tp := topP }
  let allTokens := buildAllTokens P.tok anchor prompt
  let pre := prefillF P.seqLen 0 allTokens
  let s0 : GenState := { output := [], genCount := 0, recent := [], counts := fun _ => none, pos := pre.2, hist := pre.1, rngIdx := 0, sampled := [], emitted := [] }
  genLoopF P C (C.maxTok + 32).toNat 0 s0

/-! ## Claim C3 — GPT-2 mode selection -/

/-- The bytes of `"llama"`. -/
def llamaBytes : List ℕ := [108, 108, 97, 109, 97]

/-- Metadata with `tokenizer.ggml.model = "llama"`, a non-empty merges
table and no scores. -/
def metaC3 : GGUFMetadata :=
  ⟨[[97]], [], none, [[97, 32, 98]], llamaBytes, 1, -1, -1, false⟩

/-- Metadata with `tokenizer.ggml.model = "llama"`, a non-empty merges
table and non-empty scores. -/
def metaC3w : GGUFMetadata :=
  ⟨[[97]], [0], none, [[97, 32, 98]], llamaBytes, 1, -1, -1, false⟩

/-- C3 counterexample: with model string `"llama"`, a merges table and an
empty scores table, `NewTokenizer` still selects GPT-2 mode — presence of
a merges table (with no scores) puts the tokenizer into GPT-2 mode
without the confirming model string. -/
theorem c3_counterexample :
    (NewTokenizer metaC3).IsGPT2 = true ∧ metaC3.TokenModel ≠ gpt2Bytes := by
  constructor
  · decide
  · decide

/-- C3 (amended): GPT-2 merge-rank mode is selected iff the
`tokenizer.ggml.model` string is `"gpt2"` OR the merges table is
non-empty while the scores table is empty; in particular a merges table
alongside non-empty scores does not select GPT-2 mode. -/
theorem c3_mode_selection :
    (∀ meta : GGUFMetadata, (NewTokenizer meta).IsGPT2 = true ↔
      (meta.TokenModel = gpt2Bytes ∨
        (meta.TokenMerges ≠ [] ∧ meta.TokenScores = []))) ∧
    (∀ meta : GGUFMetadata, meta.TokenModel ≠ gpt2Bytes →
      meta.TokenScores ≠ [] → (NewTokenizer meta).IsGPT2 = false) := by
  constructor
  · intro meta
    simp [NewTokenizer]
  · intro meta h1 h2
    simp [NewTokenizer, h1, h2]

/-- C3 witness: a concrete metadata with merges present but scores
non-empty and model `"llama"` stays in SentencePiece mode. -/
theorem c3_witness : (NewTokenizer metaC3w).IsGPT2 = false :=
  c3_mode_selection.2 metaC3w (by decide) (by simp [metaC3w])

/-! ## Claim C2 — repetition penalty -/

theorem updAt_length : ∀ (l : List ℚ) (n : ℕ) (f : ℚ → ℚ),
    (updAt l n f).length = l.length := by
  intro l
  induction l with
  | nil => intro n f; rfl
  | cons x rest ih =>
    intro n f
    cases n with
    | zero => rfl
    | succ m => simp [updAt, ih]

theorem updAt_getD : ∀ (l : List ℚ) (n : ℕ) (f : ℚ → ℚ) (i : ℕ), i < l.length →
    (updAt l n f).getD i 0 = if n = i then f (l.getD i 0) else l.getD i 0 := by
  intro l
  induction l with
  | nil => intro n f i hi; simp at hi
  | cons x rest ih =>
    intro n f i hi
    cases n with
    | zero =>
      cases i with
      | zero => simp [updAt]
      | succ j => simp [updAt]
    | succ m =>
      cases i with
      | zero => simp [updAt]
      | succ j =>
        have hj : j < rest.length := by simpa using hi
        simp only [updAt, List.getD_cons_succ]
        rw [ih m f j hj]
        by_cases h : m = j
        · rw [if_pos h, if_pos (by omega)]
        · rw [if_neg h, if_neg (by omega)]

theorem repStep_le {ρ : ℚ} (hρ : 1 ≤ ρ) (x : ℚ) : repStep ρ x ≤ x := by
  unfold repStep
  split
  · exact div_le_self (by linarith) hρ
  · rename_i h
    calc x * ρ ≤ x * 1 := mul_le_mul_of_nonpos_left hρ (le_of_not_lt h)
    _ = x := mul_one x

theorem repStep_pos {ρ : ℚ} (hρ : 1 ≤ ρ) {x : ℚ} (hx : 0 < x) :
    0 < repStep ρ x := by
  unfold repStep
  rw [if_pos hx]
  exact div_pos hx (lt_of_lt_of_le one_pos hρ)

theorem repStep_abs_ge {ρ : ℚ} (hρ : 1 ≤ ρ) {x : ℚ} (hx : x ≤ 0) :
    |x| ≤ |repStep ρ x| := by
  unfold repStep
  rw [if_neg (not_lt.mpr hx), abs_mul, abs_of_nonneg (by linarith : (0:ℚ) ≤ ρ)]
  exact le_mul_of_one_le_right (abs_nonneg x) hρ

theorem repIter_le {ρ : ℚ} (hρ : 1 ≤ ρ) (x : ℚ) :
    ∀ n : ℕ, (repStep ρ)^[n] x ≤ x := by
  intro n
  induction n with
  | zero => simp
  | succ m ih =>
    rw [Function.iterate_succ_apply']
    exact le_trans (repStep_le hρ _) ih

theorem repIter_pos {ρ : ℚ} (hρ : 1 ≤ ρ) {x : ℚ} (hx : 0 < x) :
    ∀ n : ℕ, 0 < (repStep ρ)^[n] x := by
  intro n
  induction n with
  | zero => simpa
  | succ m ih =>
    rw [Function.iterate_succ_apply']
    exact repStep_pos hρ ih

theorem repIter_nonpos {ρ : ℚ} (hρ : 1 ≤ ρ) {x : ℚ} (hx : x ≤ 0) :
    ∀ n : ℕ, (repStep ρ)^[n] x ≤ 0 ∧ |x| ≤ |(repStep ρ)^[n] x| := by
  intro n
  induction n with
  | zero => simp [hx]
  | succ m ih =>
    rw [Function.iterate_succ_apply']
    refine ⟨le_trans (repStep_le hρ _) ih.1, ?_⟩
    exact le_trans ih.2 (repStep_abs_ge hρ ih.1)

theorem applyRepPen_length (ρ : ℚ) : ∀ (recent : List ℤ) (logits : List ℚ),
    (applyRepPen ρ recent logits).length = logits.length := by
  intro recent
  induction recent with
  | nil => intro logits; rfl
  | cons tok rest ih =>
    intro logits
    show (applyRepPen ρ rest (updAt logits tok.toNat (repStep ρ))).length = _
    rw [ih, updAt_length]

theorem applyRepPen_getD (ρ : ℚ) : ∀ (recent : List ℤ) (logits : List ℚ),
    (∀ tok ∈ recent, 0 ≤ tok) → ∀ i : ℕ, i < logits.length →
    (applyRepPen ρ recent logits).getD i 0 =
      (repStep ρ)^[recent.count (i : ℤ)] (logits.getD i 0) := by
  intro recent
  induction recent with
  | nil =>
    intro logits _ i _
    simp [applyRepPen]
  | cons tok rest ih =>
    intro logits hrec i hi
    have h0 : 0 ≤ tok := hrec tok (List.mem_cons_self _ _)
    have step : applyRepPen ρ (tok :: rest) logits =
        applyRepPen ρ rest (updAt logits tok.toNat (repStep ρ)) := rfl
    rw [step, ih (updAt logits tok.toNat (repStep ρ))
        (fun x hx => hrec x (List.mem_cons_of_mem _ hx)) i
        (by rw [updAt_length]; exact hi),
      updAt_getD logits tok.toNat (repStep ρ) i hi]
    rcases eq_or_ne tok.toNat i with he | hne
    · rw [if_pos he]
      have hc : List.count ((i : ℤ)) (tok :: rest) = List.count ((i : ℤ)) rest + 1 := by
        simp [List.count_cons, show (i : ℤ) = tok by omega]
      rw [hc, Function.iterate_succ_apply]
    · rw [if_neg hne]
      have hc : List.count ((i : ℤ)) (tok :: rest) = List.count ((i : ℤ)) rest := by
        simp [List.count_cons, show ¬ ((i : ℤ) = tok) by omega]
      rw [hc]

/-- C2 counterexample: with `ρ = 2`, an id occurring twice in the window
and logit `-1`, the code yields `-4` — two applications, not the single
`logit·ρ = -2` the claim describes — and `|-4| > |-1|`: the affected
logit moved away from zero, not toward it. -/
theorem c2_counterexample :
    applyRepPen 2 [0, 0] [(-1 : ℚ)] = [-4] ∧
    applyRepPen 2 [0, 0] [(-1 : ℚ)] ≠ [-2] ∧
    ¬ (|(-4 : ℚ)| ≤ |(-1 : ℚ)|) := by
  have h : applyRepPen 2 [0, 0] [(-1 : ℚ)] = [-4] := by
    show updAt (updAt [(-1 : ℚ)] 0 (repStep 2)) 0 (repStep 2) = [-4]
    norm_num [updAt, repStep]
  refine ⟨h, by rw [h]; intro hc; injection hc with hc; norm_num at hc, by norm_num⟩

/-- C2 (amended): the repetition-penalty pass applies
`logit ← logit/ρ (if > 0) else logit·ρ` once per OCCURRENCE of an id in
the sliding window (an id occurring m times is transformed m times), and
for `ρ ≥ 1` the pass never increases a logit: a positive logit shrinks
toward zero (staying positive), while a non-positive logit moves further
from zero (downward).  The window ids are the sampled token ids, hence
non-negative. -/
theorem c2_rep_penalty (ρ : ℚ) (recent : List ℤ) (logits : List ℚ) (i : ℕ)
    (hρ : 1 ≤ ρ) (hrec : ∀ tok ∈ recent, 0 ≤ tok) (hi : i < logits.length) :
    (applyRepPen ρ recent logits).getD i 0 =
      (repStep ρ)^[recent.count (i : ℤ)] (logits.getD i 0) ∧
    (applyRepPen ρ recent logits).getD i 0 ≤ logits.getD i 0 ∧
    (0 < logits.getD i 0 → 0 < (applyRepPen ρ recent logits).getD i 0) ∧
    (logits.getD i 0 ≤ 0 →
      (applyRepPen ρ recent logits).getD i 0 ≤ 0 ∧
      |logits.getD i 0| ≤ |(applyRepPen ρ recent logits).getD i 0|) := by
  have hch := applyRepPen_getD ρ recent logits hrec i hi
  refine ⟨hch, ?_, ?_, ?_⟩
  · rw [hch]; exact repIter_le hρ _ _
  · intro hpos; rw [hch]; exact repIter_pos hρ hpos _
  · intro hneg; rw [hch]
    exact ⟨(repIter_nonpos hρ hneg _).1, (repIter_nonpos hρ hneg _).2⟩

/-- C2 witness: the amended theorem applied at `ρ = 2`, window `[0]`,
logits `[1]`. -/
theorem c2_witness :
    (applyRepPen 2 [0] [(1 : ℚ)]).getD 0 0 =
      (repStep 2)^[List.count ((0 : ℕ) : ℤ) [0]] ([(1 : ℚ)].getD 0 0) ∧
    (applyRepPen 2 [0] [(1 : ℚ)]).getD 0 0 ≤ [(1 : ℚ)].getD 0 0 ∧
    (0 < [(1 : ℚ)].getD 0 0 → 0 < (applyRepPen 2 [0] [(1 : ℚ)]).getD 0 0) ∧
    ([(1 : ℚ)].getD 0 0 ≤ 0 →
      (applyRepPen 2 [0] [(1 : ℚ)]).getD 0 0 ≤ 0 ∧
      |[(1 : ℚ)].getD 0 0| ≤ |(applyRepPen 2 [0] [(1 : ℚ)]).getD 0 0|) :=
  c2_rep_penalty 2 [0] [(1 : ℚ)] 0 (by norm_num)
    (by intro tok htok; simp at htok; omega) (by decide)

/-! ## Claim C9 — silent byte dropping in `symbolsToIDs` -/

/-- A tokenizer whose vocabulary is the single token `"B"` — no byte
tokens at all, so every byte-fallback entry is `-1`. -/
def tC9 : Tokenizer := ⟨[[66]], [0], none, 1, -1, -1, false, false, []⟩

/-- C9: a symbol absent from the vocabulary contributes exactly the ids
of its bytes whose byte-fallback entries exist (bytes mapped to `-1` are
silently dropped), and encoding `"A"` with the `tC9` vocabulary returns
(without error) an empty id list, which decodes to strictly fewer bytes
than the input. -/
theorem c9_byte_drop :
    (∀ (t : Tokenizer) (sym : List ℕ) (rest : List (List ℕ)),
      tokenToID t sym = none →
      symbolsToIDs t (sym :: rest) =
        sym.filterMap (fun b => (byteTok t b).map (fun id => (id : ℤ))) ++
          symbolsToIDs t rest) ∧
    (Encode tC9 [65] false = [] ∧ Decode tC9 (Encode tC9 [65] false) = [] ∧
      (Decode tC9 (Encode tC9 [65] false)).length < [65].length) := by
  constructor
  · intro t sym rest h
    simp only [symbolsToIDs, List.flatMap_cons, h]
  · refine ⟨by decide, by decide, by decide⟩

/-- C9 witness: the general clause applied to `tC9` and the symbol
`"A"`, whose lookup misses. -/
theorem c9_witness :
    symbolsToIDs tC9 [[65]] =
      [65].filterMap (fun b => (byteTok tC9 b).map (fun id => (id : ℤ))) ++
        symbolsToIDs tC9 [] :=
  c9_byte_drop.1 tC9 [65] [] (by decide)

/-! ## Claim C4 — decode skipping -/

/-- A tokenizer whose only token is the control token `"<s>"`. -/
def tC4 : Tokenizer := ⟨[[60, 115, 62]], [0], some [3], 1, -1, -1, false, false, []⟩

/-- C4 counterexample: `Decode` skips the control token (zero bytes) but
`DecodeToken` — the single-token decode operation — returns its text
`"<s>"`, not zero bytes, contradicting the claim. -/
theorem c4_counterexample :
    Decode tC4 [0] = [] ∧ DecodeToken tC4 0 = [60, 115, 62] ∧
    DecodeToken tC4 0 ≠ [] := by
  refine ⟨by decide, by decide, by decide⟩

theorem decodeOne_skip {t : Tokenizer} {id : ℤ}
    (h : id < 0 ∨ t.VocabSize ≤ id ∨ isControlIdx t id.toNat = true) :
    decodeOne t id = [] := by
  unfold decodeOne
  by_cases hr : id < 0 ∨ t.VocabSize ≤ id
  · rw [if_pos hr]
  · rw [if_neg hr]
    have hc : isControlIdx t id.toNat = true := by tauto
    simp only [hc, if_true]

/-- C4 (amended): `Decode` contributes no bytes for ids outside `[0, V)`
and for control-type ids (removing such an id from the input leaves the
decoded output unchanged); `DecodeToken` returns zero bytes only for ids
outside `[0, V)` — it does NOT skip control tokens (see the
counterexample); encoding is total, with `addBos = true` merely
prepending the BOS id when it is non-negative. -/
theorem c4_decode_skips :
    (∀ (t : Tokenizer) (ids1 ids2 : List ℤ) (id : ℤ),
      (id < 0 ∨ t.VocabSize ≤ id ∨ isControlIdx t id.toNat = true) →
      Decode t (ids1 ++ id :: ids2) = Decode t (ids1 ++ ids2)) ∧
    (∀ (t : Tokenizer) (id : ℤ), (id < 0 ∨ t.VocabSize ≤ id) →
      DecodeToken t id = []) ∧
    (∀ (t : Tokenizer) (text : List ℕ),
      Encode t text true =
        (if 0 ≤ t.BosID then [t.BosID] else []) ++ Encode t text false) := by
  refine ⟨?_, ?_, ?_⟩
  · intro t ids1 ids2 id h
    have hskip : decodeOne t id = [] := decodeOne_skip h
    unfold Decode
    rw [show (ids1 ++ id :: ids2).flatMap (decodeOne t) =
        (ids1 ++ ids2).flatMap (decodeOne t) by
      simp [List.flatMap_append, List.flatMap_cons, hskip]]
  · intro t id h
    unfold DecodeToken
    rw [if_pos h]
  · intro t text
    unfold Encode
    by_cases htext : text = []
    · subst htext
      simp
    · rw [if_neg htext, if_neg htext]
      simp [List.append_assoc]

/-- C4 witness: the amended theorem applied to `tC4` at the out-of-range
id 5 and at the control id 0. -/
theorem c4_witness :
    Decode tC4 ([] ++ (5 : ℤ) :: []) = Decode tC4 ([] ++ []) ∧
    Decode tC4 ([] ++ (0 : ℤ) :: []) = Decode tC4 ([] ++ []) ∧
    DecodeToken tC4 5 = [] :=
  ⟨c4_decode_skips.1 tC4 [] [] 5 (by decide),
   c4_decode_skips.1 tC4 [] [] 0 (by decide),
   c4_decode_skips.2.1 tC4 5 (by decide)⟩

/-! ## Claim C8 — window / count-map synchronization -/

/-- The empty sampling state (`recentTokens`, `tokenCounts`) at the top
of `wtf_generate`. -/
def initWindow : List ℤ × (ℤ → Option ℤ) := ([], fun _ => none)

/-- The synchronization property: an id has a map entry iff it occurs in
the window, and the entry equals its number of occurrences. -/
def windowSync (s : List ℤ × (ℤ → Option ℤ)) : Prop :=
  ∀ id : ℤ, s.2 id = if 0 < s.1.count id then some ((s.1.count id : ℕ) : ℤ) else none

theorem windowSync_getD {s : List ℤ × (ℤ → Option ℤ)} (h : windowSync s)
    (id : ℤ) : (s.2 id).getD 0 = ((s.1.count id : ℕ) : ℤ) := by
  rw [h id]
  split
  · rfl
  · rename_i hc
    have h0 : s.1.count id = 0 := by omega
    simp [h0]

theorem bumpCount_sync {s : List ℤ × (ℤ → Option ℤ)} (next : ℤ)
    (h : windowSync s) : windowSync (s.1 ++ [next], bumpCount s.2 next) := by
  intro id
  show bumpCount s.2 next id = _
  unfold bumpCount
  by_cases hid : id = next
  · subst hid
    rw [if_pos rfl]
    have hc : (s.1 ++ [id]).count id = s.1.count id + 1 := by
      simp [List.count_append]
    rw [windowSync_getD h id]
    show some _ = _
    rw [if_pos (by simp [hc])]
    rw [hc]
    push_cast
    ring_nf
  · rw [if_neg hid]
    have hc : (s.1 ++ [next]).count id = s.1.count id := by
      simp [List.count_append, List.count_cons, Ne.symm hid]
    show s.2 id = _
    rw [h id, hc]

theorem dropHead_sync {l : List ℤ} {c : ℤ → Option ℤ}
    (h : windowSync (l, c)) (hne : l ≠ []) :
    windowSync (l.tail, dropCount c (l.headD 0)) := by
  match l, hne with
  | hd :: tl, _ =>
    intro id
    have hg : (c hd).getD 0 = (((hd :: tl).count hd : ℕ) : ℤ) :=
      @windowSync_getD (hd :: tl, c) h hd
    have hc1 : (hd :: tl).count hd = tl.count hd + 1 := by
      simp [List.count_cons]
    show dropCount c ((hd :: tl).headD 0) id =
      (if 0 < tl.count id then some ((tl.count id : ℕ) : ℤ) else none)
    unfold dropCount
    simp only [List.headD_cons]
    by_cases hid : id = hd
    · subst hid
      rw [if_pos rfl, hg, hc1]
      by_cases h0 : tl.count id = 0
      · rw [if_pos (by push_cast; omega), if_neg (by omega)]
      · rw [if_neg (by push_cast; omega), if_pos (by omega)]
        congr 1
        push_cast
        ring
    · rw [if_neg hid]
      have hc2 : (hd :: tl).count id = tl.count id := by
        simp [List.count_cons, hid]
      have hh := h id
      rw [hc2] at hh
      exact hh

theorem stepWindow_sync {s : List ℤ × (ℤ → Option ℤ)} (W : ℤ) (next : ℤ)
    (h : windowSync s) : windowSync (stepWindow W s next) := by
  unfold stepWindow
  split
  · exact dropHead_sync (bumpCount_sync next h) (by simp)
  · exact bumpCount_sync next h

theorem stepWindow_len {s : List ℤ × (ℤ → Option ℤ)} (W : ℤ) (next : ℤ)
    (h : (s.1.length : ℤ) ≤ max W 0) :
    (((stepWindow W s next).1.length : ℤ)) ≤ max W 0 := by
  unfold stepWindow
  rcases max_choice W 0 with hm | hm <;>
  · split <;>
    · rename_i hcond
      simp only [List.length_tail, List.length_append, List.length_cons,
        List.length_nil] at *
      omega

theorem foldWindow_inv (W : ℤ) : ∀ (tokens : List ℤ)
    (s : List ℤ × (ℤ → Option ℤ)), windowSync s → (s.1.length : ℤ) ≤ max W 0 →
    windowSync (tokens.foldl (stepWindow W) s) ∧
    (((tokens.foldl (stepWindow W) s).1.length : ℤ)) ≤ max W 0 := by
  intro tokens
  induction tokens with
  | nil => intro s h1 h2; exact ⟨h1, h2⟩
  | cons tok rest ih =>
    intro s h1 h2
    rw [List.foldl_cons]
    exact ih _ (stepWindow_sync W tok h1) (stepWindow_len W tok h2)

theorem initWindow_sync : windowSync initWindow := by
  intro id
  simp [initWindow]

/-- Invariant preservation through the post-sample part of a loop body. -/
theorem genAfterSample_inv (P : GenParams) (next : ℤ)
    (k : GenState → GenResult) (Q : GenState → Prop) (s : GenState)
    (h1 : Q (stepSample P s next))
    (h2 : ∀ piece, Q (stepEmit (stepSample P s next) next piece))
    (h3 : ∀ s2, Q s2 → Q (k s2).state) :
    Q (genAfterSample P s next k).state := by
  simp only [genAfterSample]
  split
  · exact h1
  · split
    · exact h1
    · split
      · exact h1
      · split
        · exact h2 _
        · exact h3 _ (h2 _)

/-- Invariant preservation through the whole decode loop. -/
theorem genLoopF_inv (P : GenParams) (C : GenCall) (Q : GenState → Prop)
    (hsample : ∀ s next, Q s → Q (stepSample P s next))
    (hemit : ∀ s next piece, Q s → Q (stepEmit s next piece)) :
    ∀ (fuel i : ℕ) (s : GenState), Q s → Q (genLoopF P C fuel i s).state := by
  intro fuel
  induction fuel with
  | zero => intro i s h; exact h
  | succ fuel ih =>
    intro i s h
    rw [genLoopF]
    split
    · exact h
    · split
      · exact h
      · exact genAfterSample_inv P _ _ Q s (hsample s _ h)
          (fun piece => hemit _ _ piece (hsample s _ h)) (fun s2 h2 => ih _ s2 h2)

/-- C8: throughout a run of `wtf_generate` (with window capacity
`W ≥ 0`), the final window state is exactly the fold of the window
update over the sampled ids, and after every window update — i.e. after
any prefix of the sampled ids — the count map has an entry for an id iff
it occurs in the window, with value its number of occurrences, and the
window holds at most `W` ids. -/
theorem c8_window_sync (P : GenParams) (prompt anchor : List ℕ)
    (maxTokens maxOutputLen : ℤ) (temperature topP : ℚ)
    (hW : 0 ≤ P.repWindow) :
    (((wtf_generate P prompt anchor maxTokens maxOutputLen temperature
        topP).state.recent,
      (wtf_generate P prompt anchor maxTokens maxOutputLen temperature
        topP).state.counts) =
      (wtf_generate P prompt anchor maxTokens maxOutputLen temperature
        topP).state.sampled.foldl (stepWindow P.repWindow) initWindow) ∧
    (∀ tokens : List ℤ,
      windowSync (tokens.foldl (stepWindow P.repWindow) initWindow) ∧
      (((tokens.foldl (stepWindow P.repWindow) initWindow).1.length : ℤ)) ≤
        P.repWindow) := by
  constructor
  · have hmain := genLoopF_inv P
      ⟨maxTokens, maxOutputLen - 1,
        (if temperature < P.tempFloor then P.tempFloor else temperature), topP⟩
      (fun s => (s.recent, s.counts) =
        s.sampled.foldl (stepWindow P.repWindow) initWindow)
      (fun s next h => by
        simp only [stepSample, List.foldl_append, List.foldl_cons,
          List.foldl_nil, ← h])
      (fun s next piece h => by simpa [stepEmit] using h)
      (maxTokens + 32).toNat 0
      ⟨[], 0, [], fun _ => none,
        (prefillF P.seqLen 0 (buildAllTokens P.tok anchor prompt)).2,
        (prefillF P.seqLen 0 (buildAllTokens P.tok anchor prompt)).1, 0, [], []⟩
      (by rfl)
    exact hmain
  · intro tokens
    have := foldWindow_inv P.repWindow tokens initWindow initWindow_sync
      (by simp [initWindow])
    rcases this with ⟨h1, h2⟩
    refine ⟨h1, le_trans h2 ?_⟩
    rw [max_eq_left hW]

/-- A concrete parameter set for witnesses: one-token vocabulary, a
constant model, constant `exp`, zero draws, window capacity 4. -/
def Pconc : GenParams := ⟨⟨[[65]], [0], none, 1, -1, -1, false, false, []⟩,
  fun _ => [1], fun _ => 1, fun _ => 0, 10, 1, 1, 4, 0⟩

/-- C8 witness: a concrete run with window capacity 4. -/
theorem c8_witness :
    (((wtf_generate Pconc [] [] 2 100 1 2).state.recent,
      (wtf_generate Pconc [] [] 2 100 1 2).state.counts) =
      (wtf_generate Pconc [] [] 2 100 1 2).state.sampled.foldl
        (stepWindow Pconc.repWindow) initWindow) ∧
    (∀ tokens : List ℤ,
      windowSync (tokens.foldl (stepWindow Pconc.repWindow) initWindow) ∧
      (((tokens.foldl (stepWindow Pconc.repWindow) initWindow).1.length : ℤ)) ≤
        Pconc.repWindow) :=
  c8_window_sync Pconc [] [] 2 100 1 2 (by norm_num [Pconc])

/-! ## Claim C10 — cycle detection cannot fire with a small window -/

theorem isCycle_length {r : List ℤ} (h : isCycle r = true) : 16 ≤ r.length := by
  unfold isCycle at h
  rw [Bool.and_eq_true] at h
  exact of_decide_eq_true h.1

theorem genAfterSample_no_cycle (P : GenParams) (s : GenState) (next : ℤ)
    (k : GenState → GenResult) (hW : P.repWindow < 16)
    (hlen : (((stepSample P s next).recent.length : ℤ)) ≤ max P.repWindow 0)
    (hk : (k (stepEmit (stepSample P s next) next
      (DecodeToken P.tok next))).reason ≠ .cycle) :
    (genAfterSample P s next k).reason ≠ .cycle := by
  simp only [genAfterSample]
  split
  · exact fun hc => StopReason.noConfusion hc
  · split
    · rename_i hcyc
      have h16 := isCycle_length hcyc
      exfalso
      rcases max_choice P.repWindow 0 with hm | hm <;> omega
    · split
      · exact fun hc => StopReason.noConfusion hc
      · split
        · exact fun hc => StopReason.noConfusion hc
        · exact hk

theorem genLoopF_no_cycle (P : GenParams) (C : GenCall)
    (hW : P.repWindow < 16) :
    ∀ (fuel i : ℕ) (s : GenState),
    ((s.recent.length : ℤ)) ≤ max P.repWindow 0 →
    (genLoopF P C fuel i s).reason ≠ .cycle := by
  intro fuel
  induction fuel with
  | zero =>
    intro i s _ hc
    exact StopReason.noConfusion hc
  | succ fuel ih =>
    intro i s h
    rw [genLoopF]
    split
    · exact fun hc => StopReason.noConfusion hc
    · split
      · exact fun hc => StopReason.noConfusion hc
      · have hlen1 : (((stepSample P s (sampleNext P C s)).recent.length : ℤ)) ≤
            max P.repWindow 0 := stepWindow_len P.repWindow _ h
        exact genAfterSample_no_cycle P s _ _ hW hlen1
          (ih (i + 1) _ (by simpa [stepEmit] using hlen1))

/-- C10: with the repetition window capacity below 16 (as settable via
`wtf_set_rep_penalty`), the cycle-detection stop can never fire: the
check requires at least 16 window entries, but the window is trimmed to
at most `max(W, 0) < 16` entries before the check runs. -/
theorem c10_no_cycle_small_window (P : GenParams) (prompt anchor : List ℕ)
    (maxTokens maxOutputLen : ℤ) (temperature topP : ℚ)
    (hW : P.repWindow < 16) :
    (wtf_generate P prompt anchor maxTokens maxOutputLen temperature
      topP).reason ≠ StopReason.cycle :=
  genLoopF_no_cycle P
    ⟨maxTokens, maxOutputLen - 1,
      (if temperature < P.tempFloor then P.tempFloor else temperature), topP⟩
    hW (maxTokens + 32).toNat 0
    ⟨[], 0, [], fun _ => none,
      (prefillF P.seqLen 0 (buildAllTokens P.tok anchor prompt)).2,
      (prefillF P.seqLen 0 (buildAllTokens P.tok anchor prompt)).1, 0, [], []⟩
    (by simp)

/-- C10 witness: a concrete run with window capacity 4 < 16. -/
theorem c10_witness :
    (wtf_generate Pconc [] [] 2 100 1 2).reason ≠ StopReason.cycle :=
  c10_no_cycle_small_window Pconc [] [] 2 100 1 2 (by norm_num [Pconc])

/-! ## Claim C7 — EOS stops before decode and forward -/

theorem genLoopF_eos (P : GenParams) (C : GenCall) :
    ∀ (fuel i : ℕ) (s : GenState) (H0 : List ℤ),
    s.output = s.emitted.flatMap (DecodeToken P.tok) →
    P.tok.EosID ∉ s.emitted →
    P.tok.EosID ∉ s.sampled →
    s.hist = H0 ++ s.emitted →
    (genLoopF P C fuel i s).state.output =
      (genLoopF P C fuel i s).state.emitted.flatMap (DecodeToken P.tok) ∧
    P.tok.EosID ∉ (genLoopF P C fuel i s).state.emitted ∧
    (genLoopF P C fuel i s).state.hist =
      H0 ++ (genLoopF P C fuel i s).state.emitted ∧
    (P.tok.EosID ∈ (genLoopF P C fuel i s).state.sampled →
      (genLoopF P C fuel i s).reason = .eos) := by
  intro fuel
  induction fuel with
  | zero =>
    intro i s H0 h1 h2 h3 h4
    exact ⟨h1, h2, h4, fun hmem => absurd hmem h3⟩
  | succ fuel ih =>
    intro i s H0 h1 h2 h3 h4
    rw [genLoopF]
    split
    · exact ⟨h1, h2, h4, fun hmem => absurd hmem h3⟩
    · split
      · exact ⟨h1, h2, h4, fun hmem => absurd hmem h3⟩
      · simp only [genAfterSample]
        split
        · -- EOS sampled: state is stepSample, reason is eos
          rename_i heos
          refine ⟨by simpa [stepSample] using h1, by simpa [stepSample] using h2,
            by simpa [stepSample] using h4, fun _ => rfl⟩
        · rename_i hne
          split
          · -- cycle stop
            refine ⟨by simpa [stepSample] using h1, by simpa [stepSample] using h2,
              by simpa [stepSample] using h4, ?_⟩
            intro hmem
            simp only [stepSample, List.mem_append, List.mem_singleton] at hmem
            rcases hmem with hmem | hmem
            · exact absurd hmem h3
            · exact absurd hmem.symm hne
          · split
            · -- CJK stop
              refine ⟨by simpa [stepSample] using h1, by simpa [stepSample] using h2,
                by simpa [stepSample] using h4, ?_⟩
              intro hmem
              simp only [stepSample, List.mem_append, List.mem_singleton] at hmem
              rcases hmem with hmem | hmem
              · exact absurd hmem h3
              · exact absurd hmem.symm hne
            · -- emit, then either seqCap stop or recursion
              have hout : (stepEmit (stepSample P s (sampleNext P C s))
                  (sampleNext P C s) (DecodeToken P.tok (sampleNext P C s))).output =
                  (stepEmit (stepSample P s (sampleNext P C s))
                    (sampleNext P C s)
                    (DecodeToken P.tok (sampleNext P C s))).emitted.flatMap
                    (DecodeToken P.tok) := by
                simp [stepEmit, stepSample, h1]
              have hemit : P.tok.EosID ∉ (stepEmit (stepSample P s (sampleNext P C s))
                  (sampleNext P C s) (DecodeToken P.tok (sampleNext P C s))).emitted := by
                simp only [stepEmit, stepSample, List.mem_append, List.mem_singleton]
                rintro (hmem | hmem)
                · exact absurd hmem h2
                · exact hne hmem.symm
              have hsampled : P.tok.EosID ∉ (stepEmit (stepSample P s (sampleNext P C s))
                  (sampleNext P C s) (DecodeToken P.tok (sampleNext P C s))).sampled := by
                simp only [stepEmit, stepSample, List.mem_append, List.mem_singleton]
                rintro (hmem | hmem)
                · exact absurd hmem h3
                · exact hne hmem.symm
              have hhist : (stepEmit (stepSample P s (sampleNext P C s))
                  (sampleNext P C s) (DecodeToken P.tok (sampleNext P C s))).hist =
                  H0 ++ (stepEmit (stepSample P s (sampleNext P C s))
                    (sampleNext P C s)
                    (DecodeToken P.tok (sampleNext P C s))).emitted := by
                simp [stepEmit, stepSample, h4]
              split
              · exact ⟨hout, hemit, hhist, fun hmem => absurd hmem hsampled⟩
              · exact ih (i + 1) _ H0 hout hemit hsampled hhist

/-- C7: over any run of `wtf_generate`, the output bytes are exactly the
concatenated decodings of the EMITTED ids; the EOS id is never among
them and is never fed to the model after the prefill — when EOS is
sampled the loop stops at once, before decode and forward, so the EOS
token's text never enters the output stream on its account. -/
theorem c7_eos_stop (P : GenParams) (prompt anchor : List ℕ)
    (maxTokens maxOutputLen : ℤ) (temperature topP : ℚ) :
    (wtf_generate P prompt anchor maxTokens maxOutputLen temperature
      topP).state.output =
      (wtf_generate P prompt anchor maxTokens maxOutputLen temperature
        topP).state.emitted.flatMap (DecodeToken P.tok) ∧
    P.tok.EosID ∉ (wtf_generate P prompt anchor maxTokens maxOutputLen
      temperature topP).state.emitted ∧
    (wtf_generate P prompt anchor maxTokens maxOutputLen temperature
      topP).state.hist =
      (prefillF P.seqLen 0 (buildAllTokens P.tok anchor prompt)).1 ++
        (wtf_generate P prompt anchor maxTokens maxOutputLen temperature
          topP).state.emitted ∧
    (P.tok.EosID ∈ (wtf_generate P prompt anchor maxTokens maxOutputLen
        temperature topP).state.sampled →
      (wtf_generate P prompt anchor maxTokens maxOutputLen temperature
        topP).reason = .eos) :=
  genLoopF_eos P
    ⟨maxTokens, maxOutputLen - 1,
      (if temperature < P.tempFloor then P.tempFloor else temperature), topP⟩
    (maxTokens + 32).toNat 0
    ⟨[], 0, [], fun _ => none,
      (prefillF P.seqLen 0 (buildAllTokens P.tok anchor prompt)).2,
      (prefillF P.seqLen 0 (buildAllTokens P.tok anchor prompt)).1, 0, [], []⟩
    (prefillF P.seqLen 0 (buildAllTokens P.tok anchor prompt)).1
    rfl (by simp) (by simp) (by simp)

/-! ## Claim C6 — iteration budget and grace stop -/

theorem genAfterSample_iters (P : GenParams) (s : GenState) (next : ℤ)
    (k : GenState → GenResult) :
    (genAfterSample P s next k).iters ≤
      (k (stepEmit (stepSample P s next) next
        (DecodeToken P.tok next))).iters + 1 := by
  simp only [genAfterSample]
  split
  · exact Nat.succ_le_succ (Nat.zero_le _)
  · split
    · exact Nat.succ_le_succ (Nat.zero_le _)
    · split
      · exact Nat.succ_le_succ (Nat.zero_le _)
      · split
        · exact Nat.succ_le_succ (Nat.zero_le _)
        · exact Nat.le_refl _

theorem genLoopF_iters_le (P : GenParams) (C : GenCall) :
    ∀ (fuel i : ℕ) (s : GenState), (genLoopF P C fuel i s).iters ≤ fuel := by
  intro fuel
  induction fuel with
  | zero => intro i s; exact Nat.le_refl 0
  | succ fuel ih =>
    intro i s
    rw [genLoopF]
    split
    · exact Nat.zero_le _
    · split
      · exact Nat.succ_le_succ (Nat.zero_le _)
      · exact le_trans (genAfterSample_iters P s _ _)
          (Nat.succ_le_succ (ih (i + 1) _))

/-- C6: a call to `wtf_generate` enters the decode-loop body at most
`maxTokens + 32` times, and once `maxTokens` iterations have passed
(grace), the loop halts at once — with no further sampling and no state
change — whenever the last emitted output byte is `.`, `!`, `?` or a
newline. -/
theorem c6_grace_budget (P : GenParams) (prompt anchor : List ℕ)
    (maxTokens maxOutputLen : ℤ) (temperature topP : ℚ)
    (h : 0 ≤ maxTokens) :
    (((wtf_generate P prompt anchor maxTokens maxOutputLen temperature
      topP).iters : ℤ)) ≤ maxTokens + 32 ∧
    (∀ (C : GenCall) (fuel i : ℕ) (s : GenState),
      C.maxTok ≤ (i : ℤ) → s.output ≠ [] →
      isStopByte (s.output.getLast?.getD 0) = true →
      (genLoopF P C fuel i s).state = s ∧ (genLoopF P C fuel i s).iters ≤ 1) := by
  constructor
  · have hle := genLoopF_iters_le P
      ⟨maxTokens, maxOutputLen - 1,
        (if temperature < P.tempFloor then P.tempFloor else temperature), topP⟩
      (maxTokens + 32).toNat 0
      ⟨[], 0, [], fun _ => none,
        (prefillF P.seqLen 0 (buildAllTokens P.tok anchor prompt)).2,
        (prefillF P.seqLen 0 (buildAllTokens P.tok anchor prompt)).1, 0, [], []⟩
    have hcast : (((maxTokens + 32).toNat : ℤ)) = maxTokens + 32 :=
      Int.toNat_of_nonneg (by omega)
    calc ((wtf_generate P prompt anchor maxTokens maxOutputLen temperature
        topP).iters : ℤ) ≤ ((maxTokens + 32).toNat : ℤ) := by exact_mod_cast hle
    _ = maxTokens + 32 := hcast
  · intro C fuel i s hi ho hs
    cases fuel with
    | zero => exact ⟨rfl, Nat.zero_le 1⟩
    | succ fuel =>
      rw [genLoopF]
      split
      · exact ⟨rfl, Nat.zero_le 1⟩
      · split
        · exact ⟨rfl, Nat.le_refl 1⟩
        · rename_i hneg
          exact absurd ⟨hi, ho, hs⟩ hneg

/-- C6 witness: the theorem applied to a concrete run with
`maxTokens = 2`. -/
theorem c6_witness :
    (((wtf_generate Pconc [] [] 2 100 1 2).iters : ℤ)) ≤ 2 + 32 ∧
    (∀ (C : GenCall) (fuel i : ℕ) (s : GenState),
      C.maxTok ≤ (i : ℤ) → s.output ≠ [] →
      isStopByte (s.output.getLast?.getD 0) = true →
      (genLoopF Pconc C fuel i s).state = s ∧
      (genLoopF Pconc C fuel i s).iters ≤ 1) :=
  c6_grace_budget Pconc [] [] 2 100 1 2 (by norm_num)

/-! ## Claim C5 — single-byte round trip through byte fallback -/

theorem lastIdx_spec : ∀ (l : List (List ℕ)) (s : List ℕ) (i : ℕ),
    lastIdx l s = some i → i < l.length ∧ l.getD i [] = s := by
  intro l
  induction l with
  | nil => intro s i h; simp [lastIdx] at h
  | cons a rest ih =>
    intro s i h
    unfold lastIdx at h
    split at h
    · rename_i j hj
      injection h with h
      subst h
      have hrec := ih s j hj
      refine ⟨?_, ?_⟩
      · simp only [List.length_cons]
        omega
      · simpa using hrec.2
    · split at h
      · rename_i ha
        injection h with h
        subst h
        exact ⟨by simp, by simpa using ha⟩
      · cases h

theorem lastIdx_none : ∀ (l : List (List ℕ)) (s : List ℕ),
    lastIdx l s = none → s ∉ l := by
  intro l
  induction l with
  | nil => intro s _; simp
  | cons a rest ih =>
    intro s h
    unfold lastIdx at h
    split at h
    · cases h
    · split at h
      · cases h
      · rename_i hrest ha
        simp only [List.mem_cons]
        rintro (rfl | hmem)
        · exact ha rfl
        · exact ih s hrest hmem

theorem lastIdx_mem : ∀ (l : List (List ℕ)) (s : List ℕ), s ∈ l →
    ∃ i, lastIdx l s = some i := by
  intro l s hmem
  match h : lastIdx l s with
  | some i => exact ⟨i, rfl⟩
  | none => exact absurd hmem (lastIdx_none l s h)

theorem split_singleByte (t : Tokenizer) (b : ℕ) :
    splitOnSpecialTokens t [b] = [[b]] := by
  unfold splitOnSpecialTokens
  by_cases hsp : specialTokensList t = []
  · rw [if_pos hsp]
  · rw [if_neg hsp]
    have hpick : pickSpecial [b] (specialTokensList t) = none := by
      unfold pickSpecial
      apply pickFold_id
      intro sp hsp2
      apply indexOfSub_none
      have hlen := @specialTokensList_len t sp.1 sp.2
        (by rw [Prod.mk.eta]; exact hsp2)
      have h1 : (1 : ℕ) < sp.1.length := by omega
      simpa using h1
    show splitSpecGoF t 1 [b] = [[b]]
    simp only [splitSpecGoF, hpick]

theorem lookupFold_id (s : List ℕ) : ∀ (l : List (List ℕ × ℕ)) (acc : Option ℕ),
    (∀ p ∈ l, p.1 ≠ s) →
    l.foldl (fun acc p => if p.1 = s then some p.2 else acc) acc = acc := by
  intro l
  induction l with
  | nil => intro acc _; rfl
  | cons p rest ih =>
    intro acc hall
    rw [List.foldl_cons, if_neg (hall p (List.mem_cons_self _ _))]
    exact ih acc (fun q hq => hall q (List.mem_cons_of_mem _ hq))

theorem specialLookup_short (t : Tokenizer) (s : List ℕ) (hs : s.length ≤ 2) :
    specialLookup t s = none := by
  unfold specialLookup
  apply lookupFold_id
  intro p hp
  have hlen := @specialTokensList_len t p.1 p.2
    (by rw [Prod.mk.eta]; exact hp)
  intro hc
  rw [hc] at hlen
  omega

theorem hexVal_hexDigit (n : ℕ) (h : n < 16) : hexVal (hexDigit n) = some n := by
  unfold hexVal hexDigit
  by_cases h10 : n < 10
  · rw [if_pos h10, if_pos (by omega)]
    congr 1
    omega
  · rw [if_neg h10, if_neg (by omega), if_pos (by omega)]
    congr 1
    omega

theorem sscanf_fmt (b : ℕ) (h : b < 256) :
    sscanfHexByte (hexDigit (b / 16)) (hexDigit (b % 16)) = b := by
  unfold sscanfHexByte
  rw [hexVal_hexDigit _ (by omega), hexVal_hexDigit _ (by omega)]
  show 16 * (b / 16) + b % 16 = b
  omega

theorem replaceSep_single (b : ℕ) (hb : b ≠ 0xE2) : replaceSep [b] = [b] := by
  rw [replaceSep.eq_def]
  simp only [if_neg hb]
  rfl

/-- A tokenizer holding exactly the byte-fallback tokens `<0xE2>`,
`<0xEF>`, `<0xBF>`, `<0xBD>` (byte type 6), SentencePiece mode, no
space flag. -/
def tC5 : Tokenizer :=
  ⟨[fmtByteToken 0xE2, fmtByteToken 0xEF, fmtByteToken 0xBF, fmtByteToken 0xBD],
   [0, 0, 0, 0], some [6, 6, 6, 6], 4, -1, -1, false, false, []⟩

/-- C5 counterexample: the byte `0xE2` has its `<0xE2>` token in the
vocabulary, yet encoding the single-byte string `0xE2` decodes to
`EF BF BD` (the UTF-8 of U+FFFD): Go's `[]rune` conversion inside
`initialTokenizeSP` replaces the invalid byte by the replacement
character before byte fallback can see it. -/
theorem c5_counterexample :
    fmtByteToken 0xE2 ∈ tC5.Vocab ∧
    Decode tC5 (Encode tC5 [0xE2] false) = [0xEF, 0xBF, 0xBD] ∧
    Decode tC5 (Encode tC5 [0xE2] false) ≠ [0xE2] := by
  refine ⟨by decide, by decide, by decide⟩

/-- C5 (amended): the byte round trip holds in SentencePiece mode for
ASCII bytes other than the space: if `b < 0x80`, `b ≠ ' '`, the
`<0xNN>` token for `b` is in the vocabulary, `VocabSize` matches the
vocabulary length, the add-space flag is off, and no vocabulary entry
equal to the one-byte string `b` or to `<0xNN>` is control-typed, then
encoding the single-byte string `b` yields ids that decode exactly to
`b`.  (Bytes ≥ 0x80 are mangled by the `[]rune` conversion — see the
counterexample — and the space byte is rewritten to `▁`; with the
add-space flag on, the leading-space trim can break the round trip even
for ASCII.) -/
theorem c5_byte_roundtrip (t : Tokenizer) (b : ℕ)
    (hG : t.IsGPT2 = false) (hpre : t.AddSpacePre = false)
    (hb : b < 0x80) (hbs : b ≠ 32)
    (hvs : t.VocabSize = (t.Vocab.length : ℤ))
    (hbyte : fmtByteToken b ∈ t.Vocab)
    (hctrl : ∀ i : ℕ, i < t.Vocab.length →
      (t.Vocab.getD i [] = [b] ∨ t.Vocab.getD i [] = fmtByteToken b) →
      isControlIdx t i = false) :
    Decode t (Encode t [b] false) = [b] := by
  -- the single byte decodes to the rune `b`
  have htr : toRunes [b] = [b] := by
    rw [toRunes_eq, show utf8Next [b] = some (b, [b], []) from by
      simp [utf8Next, hb]]
    rfl
  have hrb : runeBytes b = [b] := by
    unfold runeBytes
    rw [if_pos hb]
  -- Encode [b] = the ids of the single merged symbol
  have hsegs : Encode t [b] false =
      encodeSentencePiece t [b] := by
    unfold Encode
    rw [if_neg (by simp : ¬([b] : List ℕ) = [])]
    rw [split_singleByte t b]
    simp [specialLookup_short t [b] (by simp)]
  have hsp2 : encodeSentencePiece t [b] =
      symbolsToIDs t (bpeMergeScores t (initialTokenizeSP t [b])) := by
    unfold encodeSentencePiece
    rw [hG]
    simp only [Bool.false_eq_true, if_false]
    rw [show (if t.AddSpacePre ∧ [b] ≠ [] ∧ ([b] : List ℕ).headD 0 ≠ 32
        then 32 :: [b] else [b]) = [b] from by simp [hpre]]
    rw [show replaceSpaces [b] = [b] from by simp [replaceSpaces, hbs]]
    unfold bpeMerge
    rw [hG]
    simp only [Bool.false_eq_true, if_false]
  -- the decoded contribution of one vocabulary index holding `piece`
  have hdecode : ∀ (id : ℕ), id < t.Vocab.length →
      (t.Vocab.getD id [] = [b] ∨ t.Vocab.getD id [] = fmtByteToken b) →
      Decode t [(id : ℤ)] = [b] := by
    intro id hid hpiece
    have hrange : ¬(((id : ℕ) : ℤ) < 0 ∨ t.VocabSize ≤ ((id : ℕ) : ℤ)) := by
      rw [hvs]
      omega
    have htoNat : (((id : ℕ) : ℤ)).toNat = id := Int.toNat_natCast id
    have hone : decodeOne t ((id : ℕ) : ℤ) = [b] := by
      unfold decodeOne
      rw [if_neg hrange, htoNat, if_neg (by rw [hctrl id hid hpiece]; simp)]
      rcases hpiece with hpiece | hpiece
      · rw [hpiece]
        rw [if_neg (by simp [isBytePattern])]
        rw [hG]
        simp only [Bool.false_eq_true, if_false]
        exact replaceSep_single b (by omega)
      · rw [hpiece]
        rw [if_pos (by simp [isBytePattern, fmtByteToken])]
        show [sscanfHexByte (hexDigit (b / 16)) (hexDigit (b % 16))] = [b]
        rw [sscanf_fmt b (by omega)]
    unfold Decode
    rw [show ([((id : ℕ) : ℤ)].flatMap (decodeOne t)) = [b] from by
      simp [hone]]
    simp [hpre]
  rw [hsegs, hsp2]
  unfold initialTokenizeSP
  rw [htr]
  match htid : tokenToID t [b] with
  | some id =>
    have hspec := lastIdx_spec t.Vocab [b] id htid
    rw [show ([b].flatMap (fun r =>
        match tokenToID t (runeBytes r) with
        | some _ => [runeBytes r]
        | none => (runeBytes r).map fmtByteToken)) = [[b]] from by
      simp only [List.flatMap_cons, List.flatMap_nil, hrb, htid]
      rfl]
    rw [show bpeMergeScores t [[b]] = [[b]] from rfl]
    rw [show symbolsToIDs t [[b]] = [((id : ℕ) : ℤ)] from by
      simp [symbolsToIDs, htid]]
    exact hdecode id hspec.1 (Or.inl hspec.2)
  | none =>
    obtain ⟨idb, hidb⟩ := lastIdx_mem t.Vocab (fmtByteToken b) hbyte
    have hspec := lastIdx_spec t.Vocab (fmtByteToken b) idb hidb
    rw [show ([b].flatMap (fun r =>
        match tokenToID t (runeBytes r) with
        | some _ => [runeBytes r]
        | none => (runeBytes r).map fmtByteToken)) = [fmtByteToken b] from by
      simp only [List.flatMap_cons, List.flatMap_nil, hrb, htid]
      rfl]
    rw [show bpeMergeScores t [fmtByteToken b] = [fmtByteToken b] from rfl]
    rw [show symbolsToIDs t [fmtByteToken b] = [((idb : ℕ) : ℤ)] from by
      simp [symbolsToIDs, show tokenToID t (fmtByteToken b) = some idb from hidb]]
    exact hdecode idb hspec.1 (Or.inr hspec.2)

/-- C5 witness: the round trip at `b = 'A'` in the vocabulary
`["<0x41>"]`. -/
theorem c5_witness :
    Decode (⟨[fmtByteToken 0x41], [0], some [6], 1, -1, -1, false, false, []⟩ :
        Tokenizer)
      (Encode ⟨[fmtByteToken 0x41], [0], some [6], 1, -1, -1, false, false, []⟩
        [0x41] false) = [0x41] :=
  c5_byte_roundtrip _ 0x41 rfl rfl (by decide) (by decide) (by decide)
    (by decide) (by decide)

/-! ## Claim C1 — nucleus (top-p) sampling -/

/-- Modelled from the spec: "sort ids by probability descending ...
Tie-break sort by ascending id (stable sort over an index permutation)"
— the total order (probability descending, id ascending) the spec
prescribes for the candidate sort. -/
def specLex (a b : ℤ × ℚ) : Prop := b.2 < a.2 ∨ (a.2 = b.2 ∧ a.1 ≤ b.1)

instance specLex_decidable : DecidableRel specLex := fun a b => by
  unfold specLex
  infer_instance

instance specLex_total : IsTotal (ℤ × ℚ) specLex := by
  constructor
  intro a b
  rcases lt_trichotomy a.2 b.2 with h | h | h
  · exact Or.inr (Or.inl h)
  · rcases le_total a.1 b.1 with h2 | h2
    · exact Or.inl (Or.inr ⟨h, h2⟩)
    · exact Or.inr (Or.inr ⟨h.symm, h2⟩)
  · exact Or.inl (Or.inl h)

instance specLex_trans : IsTrans (ℤ × ℚ) specLex := by
  constructor
  intro a b c hab hbc
  rcases hab with hab | ⟨hab1, hab2⟩
  · rcases hbc with hbc | ⟨hbc1, hbc2⟩
    · exact Or.inl (lt_trans hbc hab)
    · exact Or.inl (hbc1 ▸ hab)
  · rcases hbc with hbc | ⟨hbc1, hbc2⟩
    · exact Or.inl (hab1 ▸ hbc)
    · exact Or.inr ⟨hab1.trans hbc1, hab2.trans hbc2⟩

/-- Modelled from the spec: the canonical descending sort with
ascending-id tie-break, realized as a sort by the total order
`specLex`. -/
def specSortDesc (cs : List (ℤ × ℚ)) : List (ℤ × ℚ) :=
  List.insertionSort specLex cs

/-- Modelled from the spec: the canonical nucleus — the smallest prefix
of the canonically sorted candidates whose cumulative mass reaches
`τ`. -/
def specNucleus (E : ℚ → ℚ) (temp τ : ℚ) (logits : List ℚ) : List ℤ :=
  nucleusIds (specSortDesc (candidatesOf E temp logits)) τ

/-- Sum of the first `j` candidate probabilities. -/
def sumTake (cs : List (ℤ × ℚ)) (j : ℕ) : ℚ :=
  ((cs.take j).map (fun c => c.2)).sum

/-- The cumulative mass at the nucleus cutoff — the `cumsum` Go
multiplies the random draw by. -/
def nucMass (cs : List (ℤ × ℚ)) (τ : ℚ) : ℚ :=
  match cutIdx cs τ with
  | some i => sumTake cs (i + 1)
  | none => 0

/-- A constant positive stand-in for `math.Exp` (all logits equal). -/
def Econst : ℚ → ℚ := fun _ => 1

/-- A possible (and, for Go's unstable `sort.Slice`, permitted) sorted
arrangement of the candidates of the all-equal logit vector `[0,0,0]`:
ids in DESCENDING order. -/
def csTie : List (ℤ × ℚ) := [(2, 1/3), (1, 1/3), (0, 1/3)]

theorem csTie_candidates : candidatesOf Econst 1 [0, 0, 0] =
    [(0, 1/3), (1, 1/3), (2, 1/3)] := by
  norm_num [candidatesOf, softmaxProbs, goMax, Econst, List.enum, List.enumFrom]

theorem csTie_cut : cutIdx csTie (1/2) = some 1 := by
  norm_num [csTie, cutIdx, cutIdxAux]

/-- C1 counterexample: over the logits `[0,0,0]` at `T_eff = 1`,
`τ = 1/2`, the descending-id arrangement `csTie` is a valid outcome of
the (unstable) candidate sort; the resulting selectable set is `{2, 1}`
— the two concrete draws 0 and 3/5 realize both ids, and every draw
lands in that set — while the spec's canonical prefix (descending
probability, ties by ascending id) is `[0, 1]`.  The claimed set
equality fails. -/
theorem c1_counterexample :
    (∀ x : ℚ, 0 < Econst x) ∧
    IsSortOutcome Econst 1 [0, 0, 0] csTie ∧
    nucleusIds csTie (1/2) = [2, 1] ∧
    sampleTopPSorted csTie (1/2) 0 = 2 ∧
    sampleTopPSorted csTie (1/2) (3/5) = 1 ∧
    (∀ u : ℚ, sampleTopPSorted csTie (1/2) u = 2 ∨
      sampleTopPSorted csTie (1/2) u = 1) ∧
    specNucleus Econst 1 (1/2) [0, 0, 0] = [0, 1] ∧
    ¬ ((2 : ℤ) ∈ specNucleus Econst 1 (1/2) [0, 0, 0]) := by
  refine ⟨fun x => one_pos, ⟨?_, ?_⟩, ?_, ?_, ?_, ?_, ?_, ?_⟩
  · rw [csTie_candidates]
    have h := List.reverse_perm csTie
    simpa [csTie] using h
  · norm_num [csTie, List.sorted_cons]
  · rw [show nucleusIds csTie (1/2) =
      ((csTie.take 2).map (fun c => c.1)) from by
        unfold nucleusIds; rw [csTie_cut]]
    rfl
  · unfold sampleTopPSorted
    rw [csTie_cut]
    norm_num [csTie, walkCdf]
  · unfold sampleTopPSorted
    rw [csTie_cut]
    norm_num [csTie, walkCdf]
  · intro u
    unfold sampleTopPSorted
    rw [csTie_cut]
    by_cases h1 : u * (((csTie.take 2).map (fun c => c.2)).sum) ≤ 0 + (1:ℚ)/3
    · left
      simp only [walkCdf, csTie, List.take_cons, List.take_nil]
      rw [if_pos (by exact_mod_cast h1)]
    · by_cases h2 : u * (((csTie.take 2).map (fun c => c.2)).sum) ≤
        (0 + (1:ℚ)/3) + 1/3
      · right
        simp only [walkCdf, csTie, List.take_cons, List.take_nil]
        rw [if_neg (by exact_mod_cast h1), if_pos (by exact_mod_cast h2)]
      · left
        simp only [walkCdf, csTie, List.take_cons, List.take_nil]
        rw [if_neg (by exact_mod_cast h1), if_neg (by exact_mod_cast h2)]
        rfl
  · unfold specNucleus
    rw [csTie_candidates]
    rw [show specSortDesc [((0:ℤ), (1:ℚ)/3), (1, 1/3), (2, 1/3)] =
      [((0:ℤ), (1:ℚ)/3), (1, 1/3), (2, 1/3)] from by
        norm_num [specSortDesc, List.insertionSort, List.orderedInsert, specLex]]
    unfold nucleusIds
    rw [show cutIdx [((0:ℤ), (1:ℚ)/3), (1, 1/3), (2, 1/3)] (1/2) = some 1 from by
      norm_num [cutIdx, cutIdxAux]]
    rfl
  · rw [show specNucleus Econst 1 (1/2) [0, 0, 0] = [0, 1] from ?_]
    · decide
    · unfold specNucleus
      rw [csTie_candidates]
      rw [show specSortDesc [((0:ℤ), (1:ℚ)/3), (1, 1/3), (2, 1/3)] =
        [((0:ℤ), (1:ℚ)/3), (1, 1/3), (2, 1/3)] from by
          norm_num [specSortDesc, List.insertionSort, List.orderedInsert, specLex]]
      unfold nucleusIds
      rw [show cutIdx [((0:ℤ), (1:ℚ)/3), (1, 1/3), (2, 1/3)] (1/2) = some 1 from by
        norm_num [cutIdx, cutIdxAux]]
      rfl

theorem sum_map_mulRight (l : List ℚ) (c : ℚ) :
    (l.map (fun x => x * c)).sum = l.sum * c := by
  induction l with
  | nil => simp
  | cons x rest ih => simp [ih, add_mul]

theorem sum_pos_of_all_pos : ∀ (l : List ℚ), l ≠ [] → (∀ x ∈ l, 0 < x) →
    0 < l.sum := by
  intro l
  induction l with
  | nil => intro h; exact absurd rfl h
  | cons x rest ih =>
    intro _ hall
    rw [List.sum_cons]
    rcases eq_or_ne rest [] with rfl | hne
    · simpa using hall x (by simp)
    · have hr := ih hne (fun y hy => hall y (List.mem_cons_of_mem _ hy))
      have hx := hall x (List.mem_cons_self _ _)
      linarith

theorem softmaxProbs_pos (E : ℚ → ℚ) (temp : ℚ) (logits : List ℚ)
    (hE : ∀ x, 0 < E x) (hne : logits ≠ []) :
    ∀ p ∈ softmaxProbs E temp logits, 0 < p := by
  have hs : 0 < ((logits.map (fun l => E ((l - goMax logits) / temp))).sum) := by
    apply sum_pos_of_all_pos
    · simpa using hne
    · intro x hx
      rw [List.mem_map] at hx
      obtain ⟨y, -, rfl⟩ := hx
      exact hE _
  intro p hp
  unfold softmaxProbs at hp
  rw [List.mem_map] at hp
  obtain ⟨q, hq, rfl⟩ := hp
  rw [List.mem_map] at hq
  obtain ⟨l, -, rfl⟩ := hq
  exact mul_pos (hE _) (by positivity)

theorem softmaxProbs_sum (E : ℚ → ℚ) (temp : ℚ) (logits : List ℚ)
    (hE : ∀ x, 0 < E x) (hne : logits ≠ []) :
    (softmaxProbs E temp logits).sum = 1 := by
  have hs : 0 < ((logits.map (fun l => E ((l - goMax logits) / temp))).sum) := by
    apply sum_pos_of_all_pos
    · simpa using hne
    · intro x hx
      rw [List.mem_map] at hx
      obtain ⟨y, -, rfl⟩ := hx
      exact hE _
  unfold softmaxProbs
  rw [sum_map_mulRight]
  field_simp

theorem candidatesOf_map_snd (E : ℚ → ℚ) (temp : ℚ) (logits : List ℚ) :
    (candidatesOf E temp logits).map (fun c => c.2) =
      softmaxProbs E temp logits := by
  unfold candidatesOf
  rw [List.map_map]
  rw [show ((fun c : ℤ × ℚ => c.2) ∘ (fun p : ℕ × ℚ => ((p.1 : ℤ), p.2))) =
    (Prod.snd : ℕ × ℚ → ℚ) from rfl]
  exact List.enum_map_snd _

theorem candidatesOf_fst_nodup (E : ℚ → ℚ) (temp : ℚ) (logits : List ℚ) :
    ((candidatesOf E temp logits).map (fun c => c.1)).Nodup := by
  unfold candidatesOf
  rw [List.map_map]
  rw [show ((fun c : ℤ × ℚ => c.1) ∘ (fun p : ℕ × ℚ => ((p.1 : ℤ), p.2))) =
    ((fun n : ℕ => (n : ℤ)) ∘ (Prod.fst : ℕ × ℚ → ℕ)) from rfl]
  rw [← List.map_map, List.enum_map_fst]
  exact (List.nodup_range _).map (fun a b h => by exact_mod_cast h)

theorem sumTake_succ_cons (c : ℤ × ℚ) (rest : List (ℤ × ℚ)) (j : ℕ) :
    sumTake (c :: rest) (j + 1) = c.2 + sumTake rest j := by
  simp [sumTake]

theorem sumTake_nonneg (cs : List (ℤ × ℚ)) (h : ∀ c ∈ cs, 0 ≤ c.2) :
    ∀ j : ℕ, 0 ≤ sumTake cs j := by
  intro j
  unfold sumTake
  apply List.sum_nonneg
  intro x hx
  rw [List.mem_map] at hx
  obtain ⟨c, hc, rfl⟩ := hx
  exact h c (List.mem_of_mem_take hc)

theorem sumTake_succ_get (cs : List (ℤ × ℚ)) (j : ℕ) (hj : j < cs.length) :
    sumTake cs (j + 1) = sumTake cs j + (cs.get ⟨j, hj⟩).2 := by
  induction cs generalizing j with
  | nil => simp at hj
  | cons c rest ih =>
    cases j with
    | zero =>
      show sumTake (c :: rest) 1 = sumTake (c :: rest) 0 + c.2
      rw [sumTake_succ_cons]
      show c.2 + sumTake rest 0 = 0 + c.2
      show c.2 + 0 = 0 + c.2
      ring
    | succ k =>
      have hk : k < rest.length := by simpa using hj
      rw [sumTake_succ_cons, sumTake_succ_cons, ih k hk]
      show c.2 + (sumTake rest k + (rest.get ⟨k, hk⟩).2) =
        c.2 + sumTake rest k + ((c :: rest).get ⟨k + 1, hj⟩).2
      rw [show ((c :: rest).get ⟨k + 1, hj⟩) = rest.get ⟨k, hk⟩ from rfl]
      ring

theorem cutIdxAux_spec (τ : ℚ) : ∀ (cs : List (ℤ × ℚ)) (acc : ℚ) (i : ℕ),
    cutIdxAux τ cs acc = some i →
    i < cs.length ∧ τ ≤ acc + sumTake cs (i + 1) ∧
      ∀ j < i, ¬ τ ≤ acc + sumTake cs (j + 1) := by
  intro cs
  induction cs with
  | nil => intro acc i h; simp [cutIdxAux] at h
  | cons c rest ih =>
    intro acc i h
    unfold cutIdxAux at h
    split at h
    · rename_i hτ
      injection h with h
      subst h
      refine ⟨by simp, ?_, by omega⟩
      rw [sumTake_succ_cons]
      have h0 : sumTake rest 0 = 0 := rfl
      linarith
    · rename_i hτ
      rcases Option.map_eq_some'.mp h with ⟨j, hj, rfl⟩
      obtain ⟨h1, h2, h3⟩ := ih (acc + c.2) j hj
      refine ⟨by simp only [List.length_cons]; omega, ?_, ?_⟩
      · rw [sumTake_succ_cons]
        linarith
      · intro k hk
        cases k with
        | zero =>
          rw [sumTake_succ_cons]
          have h0 : sumTake rest 0 = 0 := rfl
          intro hcon
          exact hτ (by linarith)
        | succ m =>
          have hm := h3 m (by omega)
          rw [sumTake_succ_cons]
          intro hcon
          exact hm (by linarith)

theorem cutIdxAux_none (τ : ℚ) : ∀ (cs : List (ℤ × ℚ)) (acc : ℚ),
    cutIdxAux τ cs acc = none →
    ∀ i < cs.length, ¬ τ ≤ acc + sumTake cs (i + 1) := by
  intro cs
  induction cs with
  | nil => intro acc _ i hi; simp at hi
  | cons c rest ih =>
    intro acc h i hi
    unfold cutIdxAux at h
    split at h
    · cases h
    · rename_i hτ
      rw [Option.map_eq_none'] at h
      cases i with
      | zero =>
        rw [sumTake_succ_cons]
        have h0 : sumTake rest 0 = 0 := rfl
        intro hcon
        exact hτ (by linarith)
      | succ k =>
        have hk := ih (acc + c.2) h k (by simpa using hi)
        rw [sumTake_succ_cons]
        intro hcon
        exact hk (by linarith)

theorem cutIdx_exists (cs : List (ℤ × ℚ)) (τ : ℚ) (hne : cs ≠ [])
    (hτ : τ ≤ sumTake cs cs.length) : ∃ i, cutIdx cs τ = some i := by
  match h : cutIdx cs τ with
  | some i => exact ⟨i, rfl⟩
  | none =>
    exfalso
    have hn := cutIdxAux_none τ cs 0 h
    match cs, hne, hτ, hn with
    | c :: rest, _, hτ, hn =>
      exact hn rest.length (by simp) (by simpa using hτ)

theorem walkCdf_mem : ∀ (cs : List (ℤ × ℚ)) (r cdf : ℚ) (idx : ℤ),
    walkCdf cs r cdf = some idx → idx ∈ cs.map (fun c => c.1) := by
  intro cs
  induction cs with
  | nil => intro r cdf idx h; cases h
  | cons c rest ih =>
    intro r cdf idx h
    show idx ∈ c.1 :: rest.map (fun c => c.1)
    unfold walkCdf at h
    split at h
    · injection h with h
      subst h
      exact List.mem_cons_self _ _
    · exact List.mem_cons_of_mem _ (ih r _ idx h)

theorem walkCdf_covers : ∀ (cs : List (ℤ × ℚ)) (r cdf : ℚ), cs ≠ [] →
    r ≤ cdf + sumTake cs cs.length → ∃ idx, walkCdf cs r cdf = some idx := by
  intro cs
  induction cs with
  | nil => intro r cdf h; exact absurd rfl h
  | cons c rest ih =>
    intro r cdf _ hr
    show ∃ idx, (if r ≤ cdf + c.2 then some c.1 else walkCdf rest r (cdf + c.2)) =
      some idx
    by_cases hc : r ≤ cdf + c.2
    · exact ⟨c.1, if_pos hc⟩
    · rcases eq_or_ne rest [] with rfl | hne
      · exfalso
        apply hc
        have h1 : sumTake [c] [c].length = c.2 + 0 := rfl
        rw [h1] at hr
        linarith
      · have hlen : sumTake (c :: rest) (c :: rest).length =
            c.2 + sumTake rest rest.length := by
          rw [show (c :: rest).length = rest.length + 1 from rfl,
            sumTake_succ_cons]
        rw [hlen] at hr
        obtain ⟨idx, hidx⟩ := ih r (cdf + c.2) hne (by linarith)
        exact ⟨idx, by rw [if_neg hc]; exact hidx⟩

theorem walkCdf_get_iff : ∀ (cs : List (ℤ × ℚ)) (cdf r : ℚ) (j : ℕ)
    (hj : j < cs.length), (∀ c ∈ cs, 0 < c.2) →
    ((cs.map (fun c => c.1)).Nodup) →
    (walkCdf cs r cdf = some ((cs.get ⟨j, hj⟩).1) ↔
      (r ≤ cdf + sumTake cs (j + 1) ∧ (j = 0 ∨ cdf + sumTake cs j < r))) := by
  intro cs
  induction cs with
  | nil => intro cdf r j hj; simp at hj
  | cons c rest ih =>
    intro cdf r j hj hpos hnd
    show (if r ≤ cdf + c.2 then some c.1 else walkCdf rest r (cdf + c.2)) =
      some ((c :: rest).get ⟨j, hj⟩).1 ↔ _
    cases j with
    | zero =>
      rw [show ((c :: rest).get ⟨0, hj⟩) = c from rfl]
      constructor
      · intro h
        by_cases hc : r ≤ cdf + c.2
        · refine ⟨?_, Or.inl rfl⟩
          rw [sumTake_succ_cons]
          have h0 : sumTake rest 0 = 0 := rfl
          linarith
        · rw [if_neg hc] at h
          have hmem := walkCdf_mem rest r (cdf + c.2) c.1 h
          rw [List.map_cons, List.nodup_cons] at hnd
          exact absurd hmem hnd.1
      · rintro ⟨h1, -⟩
        rw [sumTake_succ_cons] at h1
        have h0 : sumTake rest 0 = 0 := rfl
        rw [if_pos (by linarith)]
    | succ k =>
      have hk : k < rest.length := by simpa using hj
      rw [show ((c :: rest).get ⟨k + 1, hj⟩) = rest.get ⟨k, hk⟩ from rfl]
      by_cases hc : r ≤ cdf + c.2
      · rw [if_pos hc]
        constructor
        · intro h
          injection h with h
          exfalso
          rw [List.map_cons, List.nodup_cons] at hnd
          apply hnd.1
          rw [h]
          exact List.mem_map_of_mem _ (rest.get_mem _ _)
        · rintro ⟨h1, h2⟩
          rcases h2 with h2 | h2
          · omega
          · exfalso
            rw [sumTake_succ_cons] at h2
            have hnn : 0 ≤ sumTake rest k := sumTake_nonneg rest
              (fun x hx => le_of_lt (hpos x (List.mem_cons_of_mem _ hx))) k
            linarith
      · rw [if_neg hc]
        have hrec := ih (cdf + c.2) r k hk
          (fun x hx => hpos x (List.mem_cons_of_mem _ hx))
          (by rw [List.map_cons, List.nodup_cons] at hnd; exact hnd.2)
        rw [hrec]
        push_neg at hc
        constructor
        · rintro ⟨h1, h2⟩
          refine ⟨by rw [sumTake_succ_cons]; linarith, Or.inr ?_⟩
          rcases h2 with rfl | h2
          · rw [sumTake_succ_cons]
            have h0 : sumTake rest 0 = 0 := rfl
            linarith
          · rw [sumTake_succ_cons]
            linarith
        · rintro ⟨h1, h2⟩
          rcases h2 with h2 | h2
          · omega
          · rw [sumTake_succ_cons] at h1 h2
            exact ⟨by linarith, Or.inr (by linarith)⟩

theorem sumTake_mono (cs : List (ℤ × ℚ)) (h : ∀ c ∈ cs, 0 ≤ c.2) :
    ∀ j k : ℕ, j ≤ k → sumTake cs j ≤ sumTake cs k := by
  intro j k hjk
  induction k with
  | zero =>
    rw [Nat.le_zero.mp hjk]
  | succ m ih =>
    rcases Nat.lt_or_ge j (m + 1) with hlt | hge
    · have hjm : j ≤ m := by omega
      refine le_trans (ih hjm) ?_
      by_cases hm : m < cs.length
      · rw [sumTake_succ_get cs m hm]
        have := h (cs.get ⟨m, hm⟩) (cs.get_mem _ _)
        linarith
      · have h1 : cs.take (m + 1) = cs := List.take_of_length_le (by omega)
        have h2 : cs.take m = cs := List.take_of_length_le (by omega)
        unfold sumTake
        rw [h1, h2]
    · have hj : j = m + 1 := by omega
      rw [hj]

theorem sorted_perm_eq : ∀ (l1 l2 : List (ℤ × ℚ)),
    List.Perm l1 l2 → l1.Sorted (fun a b => b.2 ≤ a.2) →
    l2.Sorted (fun a b => b.2 ≤ a.2) →
    (l1.map (fun c => c.2)).Nodup → l1 = l2 := by
  intro l1
  induction l1 with
  | nil =>
    intro l2 hp _ _ _
    exact hp.symm.eq_nil.symm
  | cons a t1 ih =>
    intro l2 hp hs1 hs2 hnd
    cases l2 with
    | nil => exact absurd hp.eq_nil (by simp)
    | cons b t2 =>
      have hab : a = b := by
        by_contra hne
        have hbmem : b ∈ a :: t1 := hp.symm.subset (List.mem_cons_self _ _)
        have hamem : a ∈ b :: t2 := hp.subset (List.mem_cons_self _ _)
        rcases List.mem_cons.mp hbmem with h | hb
        · exact hne h.symm
        rcases List.mem_cons.mp hamem with h | ha
        · exact hne h
        have h1 : b.2 ≤ a.2 := (List.sorted_cons.mp hs1).1 b hb
        have h2 : a.2 ≤ b.2 := (List.sorted_cons.mp hs2).1 a ha
        have heq : b.2 = a.2 := le_antisymm h1 h2
        rw [List.map_cons, List.nodup_cons] at hnd
        exact hnd.1 (heq ▸ List.mem_map_of_mem _ hb)
      subst hab
      have hpt : List.Perm t1 t2 := (List.perm_cons a).mp hp
      rw [ih t2 hpt (List.sorted_cons.mp hs1).2 (List.sorted_cons.mp hs2).2
        (by rw [List.map_cons, List.nodup_cons] at hnd; exact hnd.2)]

theorem sampleTopPSorted_some (cs : List (ℤ × ℚ)) (τ u : ℚ) (i : ℕ)
    (hc : cutIdx cs τ = some i) :
    sampleTopPSorted cs τ u =
      match walkCdf (cs.take (i + 1))
          (u * ((cs.take (i + 1)).map (fun c => c.2)).sum) 0 with
      | some idx => idx
      | none => (cs.headD (0, 0)).1 := by
  unfold sampleTopPSorted
  rw [hc]

/-- C1 (amended): with positive exponentials, distinct softmax
probabilities and `topP ≤ 1`, the candidate sort outcome is forced to be
the canonical descending order (so the ascending-id tie-break is
irrelevant but also vacuous), the nucleus is the canonical smallest
prefix whose cumulative probability reaches `topP`, and the set of ids
`sampleTopP` can return over draws `u ∈ [0,1)` is exactly that prefix:
every draw lands in the prefix, and every prefix id is realized by some
draw.  Moreover sampling within the prefix is proportional to the ids'
probabilities: the draws selecting the `j`-th prefix id are exactly the
interval `(S_j/cumsum, S_{j+1}/cumsum]` of `[0,1)` (left endpoint
included for `j = 0`, where `S_0 = 0`), an interval of length
`p_j/cumsum` where `p_j` is the `j`-th sorted candidate's softmax
probability.  (The counterexample shows the distinctness hypothesis is
necessary: Go's `sort.Slice` is unstable, so with tied probabilities the
selectable set can differ from the spec's ascending-id canonical
prefix.) -/
theorem c1_nucleus (E : ℚ → ℚ) (temp τ : ℚ) (logits : List ℚ)
    (cs' : List (ℤ × ℚ))
    (hE : ∀ x, 0 < E x) (hne : logits ≠ [])
    (hτ1 : τ ≤ 1)
    (hnd : (softmaxProbs E temp logits).Nodup)
    (hsort : IsSortOutcome E temp logits cs') :
    cs' = specSortDesc (candidatesOf E temp logits) ∧
    nucleusIds cs' τ = specNucleus E temp τ logits ∧
    (∀ u : ℚ, 0 ≤ u → u < 1 →
      sampleTopPSorted cs' τ u ∈ nucleusIds cs' τ) ∧
    (∀ tid ∈ nucleusIds cs' τ, ∃ u : ℚ, 0 ≤ u ∧ u < 1 ∧
      sampleTopPSorted cs' τ u = tid) ∧
    (∀ j, j < (nucleusIds cs' τ).length → ∀ u : ℚ, 0 ≤ u → u < 1 →
      (sampleTopPSorted cs' τ u = (nucleusIds cs' τ).getD j 0 ↔
        (u ≤ sumTake cs' (j + 1) / nucMass cs' τ ∧
         (j = 0 ∨ sumTake cs' j / nucMass cs' τ < u)))) ∧
    (∀ j, j < (nucleusIds cs' τ).length →
      sumTake cs' (j + 1) / nucMass cs' τ - sumTake cs' j / nucMass cs' τ =
        (cs'.getD j (0, 0)).2 / nucMass cs' τ) := by
  obtain ⟨hperm, hsorted⟩ := hsort
  have hcpos : ∀ c ∈ candidatesOf E temp logits, 0 < c.2 := by
    intro c hc
    have hm : c.2 ∈ (candidatesOf E temp logits).map (fun c => c.2) :=
      List.mem_map_of_mem _ hc
    rw [candidatesOf_map_snd] at hm
    exact softmaxProbs_pos E temp logits hE hne _ hm
  have hpos' : ∀ c ∈ cs', 0 < c.2 := fun c hc => hcpos c (hperm.symm.subset hc)
  have hsndnd : ((candidatesOf E temp logits).map (fun c => c.2)).Nodup := by
    rw [candidatesOf_map_snd]
    exact hnd
  have hsndnd' : (cs'.map (fun c => c.2)).Nodup :=
    (hperm.map _).nodup hsndnd
  have hfstnd' : (cs'.map (fun c => c.1)).Nodup :=
    (hperm.map _).nodup (candidatesOf_fst_nodup E temp logits)
  have hspecPerm : List.Perm cs' (specSortDesc (candidatesOf E temp logits)) :=
    hperm.symm.trans (List.perm_insertionSort specLex _).symm
  have hspecSorted : (specSortDesc (candidatesOf E temp logits)).Sorted
      (fun a b => b.2 ≤ a.2) := by
    have h := List.sorted_insertionSort specLex (candidatesOf E temp logits)
    exact h.imp (fun hab => by
      rcases hab with h | ⟨h, -⟩
      · exact le_of_lt h
      · exact le_of_eq h.symm)
  have h1 : cs' = specSortDesc (candidatesOf E temp logits) :=
    sorted_perm_eq cs' _ hspecPerm hsorted hspecSorted hsndnd'
  have h2 : nucleusIds cs' τ = specNucleus E temp τ logits := by
    rw [h1]
    rfl
  have hclen : (candidatesOf E temp logits).length = logits.length := by
    simp [candidatesOf, softmaxProbs]
  have hne' : cs' ≠ [] := by
    intro h
    have hl := hperm.length_eq
    rw [h, hclen] at hl
    simp at hl
    exact hne hl
  have hsum : sumTake cs' cs'.length = 1 := by
    have ht : sumTake cs' cs'.length = (cs'.map (fun c => c.2)).sum := by
      unfold sumTake
      rw [List.take_length]
    rw [ht, ← ((hperm.map (fun c => c.2)).sum_eq), candidatesOf_map_snd]
    exact softmaxProbs_sum E temp logits hE hne
  obtain ⟨i, hcut⟩ := cutIdx_exists cs' τ hne' (by rw [hsum]; exact hτ1)
  obtain ⟨hilt, hile, -⟩ := cutIdxAux_spec τ cs' 0 i hcut
  have hpre_len : (cs'.take (i + 1)).length = i + 1 := by
    rw [List.length_take]
    omega
  have hpre_ne : cs'.take (i + 1) ≠ [] := by
    intro h
    rw [h] at hpre_len
    simp at hpre_len
  have hpre_sum : sumTake (cs'.take (i + 1)) (cs'.take (i + 1)).length =
      sumTake cs' (i + 1) := by
    unfold sumTake
    rw [hpre_len, List.take_take]
    simp
  have hppos : ∀ x ∈ cs'.take (i + 1), 0 < x.2 :=
    fun x hx => hpos' x (List.mem_of_mem_take hx)
  have hcum_pos : 0 < sumTake cs' (i + 1) := by
    rw [← hpre_sum]
    unfold sumTake
    rw [List.take_length]
    apply sum_pos_of_all_pos
    · simpa using hpre_ne
    · intro x hx
      rw [List.mem_map] at hx
      obtain ⟨c, hc, rfl⟩ := hx
      exact hppos c hc
  have hsum_eq : ((cs'.take (i + 1)).map (fun c => c.2)).sum =
      sumTake cs' (i + 1) := rfl
  have hnuc : nucleusIds cs' τ = (cs'.take (i + 1)).map (fun c => c.1) := by
    unfold nucleusIds
    rw [hcut]
  have hmass : nucMass cs' τ = sumTake cs' (i + 1) := by
    unfold nucMass
    rw [hcut]
  have hnuclen : (nucleusIds cs' τ).length = i + 1 := by
    rw [hnuc, List.length_map, hpre_len]
  have hsumpre : ∀ j, j ≤ i + 1 →
      sumTake (cs'.take (i + 1)) j = sumTake cs' j := by
    intro j hj
    unfold sumTake
    rw [List.take_take, Nat.min_eq_left hj]
  refine ⟨h1, h2, ?_, ?_, ?_, ?_⟩
  · intro u hu0 hu1
    have hr : u * sumTake cs' (i + 1) ≤
        0 + sumTake (cs'.take (i + 1)) (cs'.take (i + 1)).length := by
      rw [hpre_sum, zero_add]
      nlinarith
    obtain ⟨idx, hidx⟩ := walkCdf_covers (cs'.take (i + 1))
      (u * sumTake cs' (i + 1)) 0 hpre_ne hr
    have hmem := walkCdf_mem _ _ _ _ hidx
    rw [hnuc, sampleTopPSorted_some cs' τ u i hcut, hsum_eq, hidx]
    exact hmem
  · intro tid htid
    rw [hnuc, List.mem_map] at htid
    obtain ⟨c, hcmem, rfl⟩ := htid
    obtain ⟨⟨j, hj⟩, hget⟩ := List.mem_iff_get.mp hcmem
    have hpnd : ((cs'.take (i + 1)).map (fun c => c.1)).Nodup := by
      rw [List.map_take]
      exact List.Nodup.sublist (List.take_sublist _ _) hfstnd'
    have hSjnn : 0 ≤ sumTake (cs'.take (i + 1)) j :=
      sumTake_nonneg _ (fun x hx => le_of_lt (hppos x hx)) j
    have hSjlt : sumTake (cs'.take (i + 1)) j <
        sumTake (cs'.take (i + 1)) (j + 1) := by
      rw [sumTake_succ_get _ j hj]
      have := hppos ((cs'.take (i + 1)).get ⟨j, hj⟩) (List.get_mem _ _ _)
      linarith
    have hSle : sumTake (cs'.take (i + 1)) (j + 1) ≤
        sumTake (cs'.take (i + 1)) (cs'.take (i + 1)).length :=
      sumTake_mono _ (fun x hx => le_of_lt (hppos x hx)) (j + 1)
        (cs'.take (i + 1)).length hj
    have hC0 : sumTake cs' (i + 1) ≠ 0 := ne_of_gt hcum_pos
    refine ⟨(sumTake (cs'.take (i + 1)) j + sumTake (cs'.take (i + 1)) (j + 1)) /
      (2 * sumTake cs' (i + 1)), ?_, ?_, ?_⟩
    · apply div_nonneg
      · linarith
      · linarith
    · rw [div_lt_one (by linarith)]
      have hjC : sumTake (cs'.take (i + 1)) (j + 1) ≤ sumTake cs' (i + 1) := by
        rw [← hpre_sum]
        exact hSle
      linarith
    · rw [sampleTopPSorted_some cs' τ _ i hcut]
      have hr_eq : ((sumTake (cs'.take (i + 1)) j +
          sumTake (cs'.take (i + 1)) (j + 1)) / (2 * sumTake cs' (i + 1))) *
          ((cs'.take (i + 1)).map (fun c => c.2)).sum =
          (sumTake (cs'.take (i + 1)) j + sumTake (cs'.take (i + 1)) (j + 1)) / 2 := by
        rw [hsum_eq]
        field_simp
        ring
      rw [hr_eq]
      have hiff := walkCdf_get_iff (cs'.take (i + 1)) 0
        ((sumTake (cs'.take (i + 1)) j + sumTake (cs'.take (i + 1)) (j + 1)) / 2)
        j hj hppos hpnd
      rw [hiff.mpr ⟨by linarith, Or.inr (by linarith)⟩, hget]
  · intro j hjlen u hu0 hu1
    rw [hnuclen] at hjlen
    have hjp : j < (cs'.take (i + 1)).length := by
      rw [hpre_len]
      omega
    have hpnd : ((cs'.take (i + 1)).map (fun c => c.1)).Nodup := by
      rw [List.map_take]
      exact List.Nodup.sublist (List.take_sublist _ _) hfstnd'
    have hr : u * sumTake cs' (i + 1) ≤
        0 + sumTake (cs'.take (i + 1)) (cs'.take (i + 1)).length := by
      rw [hpre_sum, zero_add]
      nlinarith
    obtain ⟨idx, hidx⟩ := walkCdf_covers (cs'.take (i + 1))
      (u * sumTake cs' (i + 1)) 0 hpre_ne hr
    have hsel_eq : sampleTopPSorted cs' τ u = idx := by
      rw [sampleTopPSorted_some cs' τ u i hcut, hsum_eq, hidx]
    have hiff := walkCdf_get_iff (cs'.take (i + 1)) 0
      (u * sumTake cs' (i + 1)) j hjp hppos hpnd
    rw [zero_add, zero_add, hsumpre (j + 1) (by omega),
      hsumpre j (by omega)] at hiff
    have hgetD : (nucleusIds cs' τ).getD j 0 =
        ((cs'.take (i + 1)).get ⟨j, hjp⟩).1 := by
      rw [hnuc]
      rw [List.getD_eq_get _ _ (by rw [List.length_map]; exact hjp)]
      simp
    rw [hsel_eq, hgetD, hmass]
    rw [show (idx = ((cs'.take (i + 1)).get ⟨j, hjp⟩).1) ↔
        (walkCdf (cs'.take (i + 1)) (u * sumTake cs' (i + 1)) 0 =
          some (((cs'.take (i + 1)).get ⟨j, hjp⟩).1)) from by
      rw [hidx]
      exact Option.some_inj.symm]
    rw [hiff]
    constructor
    · rintro ⟨hA, hB⟩
      refine ⟨(le_div_iff₀ hcum_pos).mpr hA, ?_⟩
      rcases hB with hB | hB
      · exact Or.inl hB
      · exact Or.inr ((div_lt_iff₀ hcum_pos).mpr hB)
    · rintro ⟨hA, hB⟩
      refine ⟨(le_div_iff₀ hcum_pos).mp hA, ?_⟩
      rcases hB with hB | hB
      · exact Or.inl hB
      · exact Or.inr ((div_lt_iff₀ hcum_pos).mp hB)
  · intro j hjlen
    rw [hnuclen] at hjlen
    have hj' : j < cs'.length := by omega
    rw [hmass, div_sub_div_same]
    congr 1
    rw [sumTake_succ_get cs' j hj', List.getD_eq_get _ _ hj']
    ring

theorem c1_witness :
    (candidatesOf Econst 1 [0] = specSortDesc (candidatesOf Econst 1 [(0 : ℚ)]) ∧
     nucleusIds (candidatesOf Econst 1 [0]) (1/2) =
       specNucleus Econst 1 (1/2) [0] ∧
     (∀ u : ℚ, 0 ≤ u → u < 1 →
       sampleTopPSorted (candidatesOf Econst 1 [0]) (1/2) u ∈
         nucleusIds (candidatesOf Econst 1 [0]) (1/2)) ∧
     (∀ tid ∈ nucleusIds (candidatesOf Econst 1 [0]) (1/2), ∃ u : ℚ,
       0 ≤ u ∧ u < 1 ∧
         sampleTopPSorted (candidatesOf Econst 1 [0]) (1/2) u = tid) ∧
     (∀ j, j < (nucleusIds (candidatesOf Econst 1 [0]) (1/2)).length →
       ∀ u : ℚ, 0 ≤ u → u < 1 →
       (sampleTopPSorted (candidatesOf Econst 1 [0]) (1/2) u =
           (nucleusIds (candidatesOf Econst 1 [0]) (1/2)).getD j 0 ↔
         (u ≤ sumTake (candidatesOf Econst 1 [0]) (j + 1) /
             nucMass (candidatesOf Econst 1 [0]) (1/2) ∧
          (j = 0 ∨ sumTake (candidatesOf Econst 1 [0]) j /
             nucMass (candidatesOf Econst 1 [0]) (1/2) < u)))) ∧
     (∀ j, j < (nucleusIds (candidatesOf Econst 1 [0]) (1/2)).length →
       sumTake (candidatesOf Econst 1 [0]) (j + 1) /
           nucMass (candidatesOf Econst 1 [0]) (1/2) -
         sumTake (candidatesOf Econst 1 [0]) j /
           nucMass (candidatesOf Econst 1 [0]) (1/2) =
         ((candidatesOf Econst 1 [0]).getD j (0, 0)).2 /
           nucMass (candidatesOf Econst 1 [0]) (1/2))) :=
  c1_nucleus Econst 1 (1/2) [0] (candidatesOf Econst 1 [0])
    (fun _ => one_pos) (by simp) (by norm_num)
    (by
      rw [show softmaxProbs Econst 1 [0] = [1] from by
        norm_num [softmaxProbs, Econst, goMax]]
      exact List.nodup_singleton 1)
    ⟨List.Perm.refl _, by
      rw [show candidatesOf Econst 1 [0] = [((0 : ℤ), (1 : ℚ))] from by
        norm_num [candidatesOf, softmaxProbs, Econst, goMax, List.enum,
          List.enumFrom]]
      exact List.sorted_singleton _⟩

end WTF
